import Mathlib

/-!
Verification of the grid shortest-path engine in `p1.py`.

The program computes shortest-cost paths over a 2D grid with Dijkstra's
algorithm.  Edge costs are `distance_factor * (weight(a) + weight(b)) / 2`
where the distance factor is `1` for orthogonal steps and `sqrt 2` for
diagonal steps.  Since every cost is of the form `a + b * sqrt 2` with
rational `a`, `b`, we embed costs in the computable field `Q2` below,
whose order is decided by rational sign tests and proved correct against
the real-valued interpretation `Q2.val`.

The Python sources use floating point; this development models the ideal
real-number semantics of those expressions, which is what the spec's cost
formulas describe.
-/

/-- Exact arithmetic for numbers of the form `a + b * sqrt 2` with `a b : ℚ`.
This is the computable cost domain of the embedded engine. -/
structure Q2 where
  a : ℚ
  b : ℚ
deriving DecidableEq

namespace Q2

/-- Real value denoted by a `Q2`. -/
noncomputable def val (x : Q2) : ℝ := (x.a : ℝ) + (x.b : ℝ) * Real.sqrt 2

instance : Zero Q2 := ⟨⟨0, 0⟩⟩
instance : One Q2 := ⟨⟨1, 0⟩⟩
instance : Add Q2 := ⟨fun x y => ⟨x.a + y.a, x.b + y.b⟩⟩
instance : Sub Q2 := ⟨fun x y => ⟨x.a - y.a, x.b - y.b⟩⟩
instance : Neg Q2 := ⟨fun x => ⟨-x.a, -x.b⟩⟩
instance : Mul Q2 := ⟨fun x y => ⟨x.a * y.a + 2 * (x.b * y.b), x.a * y.b + x.b * y.a⟩⟩
instance : Inv Q2 := ⟨fun x => ⟨x.a / (x.a * x.a - 2 * (x.b * x.b)), -x.b / (x.a * x.a - 2 * (x.b * x.b))⟩⟩
instance : Div Q2 := ⟨fun x y => x * y⁻¹⟩
instance (n : ℕ) : OfNat Q2 n := ⟨⟨(n : ℚ), 0⟩⟩

/-- Embedding of the rationals. -/
def ofQ (q : ℚ) : Q2 := ⟨q, 0⟩

/-- The square root of two as a `Q2` value. -/
def sqrt2 : Q2 := ⟨0, 1⟩

/-- Decides `0 ≤ a + b * sqrt 2` by rational sign analysis. -/
def nonnegb (x : Q2) : Bool :=
  if 0 ≤ x.a then
    if 0 ≤ x.b then true else decide (2 * (x.b * x.b) ≤ x.a * x.a)
  else
    if 0 ≤ x.b then decide (x.a * x.a ≤ 2 * (x.b * x.b)) else false

/-- Boolean order test, correct for the real-valued interpretation. -/
def leb (x y : Q2) : Bool := nonnegb (y - x)

/-- Boolean strict order test. -/
def ltb (x y : Q2) : Bool := ! leb y x

instance : LE Q2 := ⟨fun x y => leb x y = true⟩
instance : LT Q2 := ⟨fun x y => ltb x y = true⟩

instance : DecidableRel (α := Q2) (· ≤ ·) :=
  fun x y => inferInstanceAs (Decidable (leb x y = true))

instance : DecidableRel (α := Q2) (· < ·) :=
  fun x y => inferInstanceAs (Decidable (ltb x y = true))

theorem sqrt_two_mul_self : Real.sqrt 2 * Real.sqrt 2 = 2 :=
  Real.mul_self_sqrt (by norm_num)

theorem ext_ab : ∀ {x y : Q2}, x.a = y.a → x.b = y.b → x = y := by
  intro x y ha hb
  cases x
  cases y
  simp_all

@[simp] theorem val_zero : (0 : Q2).val = 0 := by
  show ((0 : ℚ) : ℝ) + ((0 : ℚ) : ℝ) * Real.sqrt 2 = 0
  norm_num

@[simp] theorem val_add (x y : Q2) : (x + y).val = x.val + y.val := by
  show ((x.a + y.a : ℚ) : ℝ) + ((x.b + y.b : ℚ) : ℝ) * Real.sqrt 2 = _
  push_cast
  unfold val
  ring

@[simp] theorem val_sub (x y : Q2) : (x - y).val = x.val - y.val := by
  show ((x.a - y.a : ℚ) : ℝ) + ((x.b - y.b : ℚ) : ℝ) * Real.sqrt 2 = _
  push_cast
  unfold val
  ring

@[simp] theorem val_mul (x y : Q2) : (x * y).val = x.val * y.val := by
  show ((x.a * y.a + 2 * (x.b * y.b) : ℚ) : ℝ)
      + ((x.a * y.b + x.b * y.a : ℚ) : ℝ) * Real.sqrt 2 = _
  push_cast
  unfold val
  linear_combination (-(x.b : ℝ) * y.b) * sqrt_two_mul_self

@[simp] theorem val_ofQ (q : ℚ) : (ofQ q).val = (q : ℝ) := by
  show (q : ℝ) + ((0 : ℚ) : ℝ) * Real.sqrt 2 = _
  norm_num

@[simp] theorem val_sqrt2 : sqrt2.val = Real.sqrt 2 := by
  show ((0 : ℚ) : ℝ) + ((1 : ℚ) : ℝ) * Real.sqrt 2 = _
  norm_num

theorem val_div_two (x : Q2) : (x / 2).val = x.val / 2 := by
  have h2 : (2 : Q2)⁻¹ = ⟨1/2, 0⟩ := by with_unfolding_all decide
  show (x * (2 : Q2)⁻¹).val = _
  rw [val_mul, h2]
  have h3 : (Q2.mk (1/2) 0).val = 1/2 := by
    unfold val
    push_cast
    norm_num
  rw [h3]
  ring

theorem nonnegb_iff (x : Q2) : nonnegb x = true ↔ 0 ≤ x.val := by
  have hs0 : (0 : ℝ) ≤ Real.sqrt 2 := Real.sqrt_nonneg 2
  have hs := sqrt_two_mul_self
  unfold nonnegb val
  rcases le_or_lt 0 x.a with ha | ha
  · rcases le_or_lt 0 x.b with hb | hb
    · have haR : (0 : ℝ) ≤ (x.a : ℝ) := by exact_mod_cast ha
      have hbR : (0 : ℝ) ≤ (x.b : ℝ) := by exact_mod_cast hb
      simp only [ha, hb, if_true, true_iff]
      exact add_nonneg haR (mul_nonneg hbR hs0)
    · have haR : (0 : ℝ) ≤ (x.a : ℝ) := by exact_mod_cast ha
      have hbR : (x.b : ℝ) < 0 := by exact_mod_cast hb
      simp only [ha, if_true, hb.not_le, if_false, decide_eq_true_iff]
      constructor
      · intro h
        have hR : 2 * ((x.b : ℝ) * x.b) ≤ (x.a : ℝ) * x.a := by exact_mod_cast h
        by_contra hneg
        push_neg at hneg
        have h2 : (x.a : ℝ) < -(x.b : ℝ) * Real.sqrt 2 := by linarith
        have h3 := mul_self_lt_mul_self haR h2
        have h4 : (-(x.b : ℝ) * Real.sqrt 2) * (-(x.b : ℝ) * Real.sqrt 2)
            = 2 * ((x.b : ℝ) * x.b) := by
          calc (-(x.b : ℝ) * Real.sqrt 2) * (-(x.b : ℝ) * Real.sqrt 2)
              = ((x.b : ℝ) * x.b) * (Real.sqrt 2 * Real.sqrt 2) := by ring
            _ = 2 * ((x.b : ℝ) * x.b) := by rw [hs]; ring
        rw [h4] at h3
        linarith
      · intro h
        have h1 : (0 : ℝ) ≤ -(x.b : ℝ) * Real.sqrt 2 :=
          mul_nonneg (by linarith) hs0
        have h2 : -(x.b : ℝ) * Real.sqrt 2 ≤ (x.a : ℝ) := by linarith
        have h3 := mul_self_le_mul_self h1 h2
        have h4 : (-(x.b : ℝ) * Real.sqrt 2) * (-(x.b : ℝ) * Real.sqrt 2)
            = 2 * ((x.b : ℝ) * x.b) := by
          calc (-(x.b : ℝ) * Real.sqrt 2) * (-(x.b : ℝ) * Real.sqrt 2)
              = ((x.b : ℝ) * x.b) * (Real.sqrt 2 * Real.sqrt 2) := by ring
            _ = 2 * ((x.b : ℝ) * x.b) := by rw [hs]; ring
        rw [h4] at h3
        exact_mod_cast h3
  · rcases le_or_lt 0 x.b with hb | hb
    · have haR : (x.a : ℝ) < 0 := by exact_mod_cast ha
      have hbR : (0 : ℝ) ≤ (x.b : ℝ) := by exact_mod_cast hb
      simp only [ha.not_le, if_false, hb, if_true, decide_eq_true_iff]
      constructor
      · intro h
        have hR : (x.a : ℝ) * x.a ≤ 2 * ((x.b : ℝ) * x.b) := by exact_mod_cast h
        by_contra hneg
        push_neg at hneg
        have h2 : (x.b : ℝ) * Real.sqrt 2 < -(x.a : ℝ) := by linarith
        have h1 : (0 : ℝ) ≤ (x.b : ℝ) * Real.sqrt 2 := mul_nonneg hbR hs0
        have h3 := mul_self_lt_mul_self h1 h2
        have h4 : ((x.b : ℝ) * Real.sqrt 2) * ((x.b : ℝ) * Real.sqrt 2)
            = 2 * ((x.b : ℝ) * x.b) := by
          calc ((x.b : ℝ) * Real.sqrt 2) * ((x.b : ℝ) * Real.sqrt 2)
              = ((x.b : ℝ) * x.b) * (Real.sqrt 2 * Real.sqrt 2) := by ring
            _ = 2 * ((x.b : ℝ) * x.b) := by rw [hs]; ring
        rw [h4] at h3
        have h5 : -(x.a : ℝ) * -(x.a : ℝ) = (x.a : ℝ) * x.a := by ring
        rw [h5] at h3
        linarith
      · intro h
        have h1 : (0 : ℝ) ≤ -(x.a : ℝ) := by linarith
        have h2 : -(x.a : ℝ) ≤ (x.b : ℝ) * Real.sqrt 2 := by linarith
        have h3 := mul_self_le_mul_self h1 h2
        have h4 : ((x.b : ℝ) * Real.sqrt 2) * ((x.b : ℝ) * Real.sqrt 2)
            = 2 * ((x.b : ℝ) * x.b) := by
          calc ((x.b : ℝ) * Real.sqrt 2) * ((x.b : ℝ) * Real.sqrt 2)
              = ((x.b : ℝ) * x.b) * (Real.sqrt 2 * Real.sqrt 2) := by ring
            _ = 2 * ((x.b : ℝ) * x.b) := by rw [hs]; ring
        rw [h4] at h3
        have h5 : -(x.a : ℝ) * -(x.a : ℝ) = (x.a : ℝ) * x.a := by ring
        rw [h5] at h3
        exact_mod_cast h3
    · have haR : (x.a : ℝ) < 0 := by exact_mod_cast ha
      have hbR : (x.b : ℝ) < 0 := by exact_mod_cast hb
      have h1 : (x.b : ℝ) * Real.sqrt 2 ≤ 0 :=
        mul_nonpos_of_nonpos_of_nonneg hbR.le hs0
      simp only [ha.not_le, hb.not_le, if_false]
      constructor
      · intro hc
        exact (Bool.false_ne_true hc).elim
      · intro hcon
        exfalso
        linarith

theorem le_iff {x y : Q2} : x ≤ y ↔ x.val ≤ y.val := by
  show leb x y = true ↔ _
  unfold leb
  rw [nonnegb_iff, val_sub]
  constructor <;> intro h <;> linarith

theorem lt_iff {x y : Q2} : x < y ↔ x.val < y.val := by
  show ltb x y = true ↔ _
  unfold ltb
  cases h : leb y x with
  | false =>
    simp only [h, Bool.not_false]
    constructor
    · intro _
      have hyx : ¬ (y ≤ x) := by
        show ¬ (leb y x = true)
        simp [h]
      rw [le_iff] at hyx
      exact not_le.mp hyx
    · intro _
      trivial
  | true =>
    simp only [h, Bool.not_true]
    constructor
    · intro hc
      exact (Bool.false_ne_true hc).elim
    · intro hlt
      exfalso
      have hyx : y.val ≤ x.val := le_iff.mp h
      linarith

theorem val_injective : Function.Injective val := by
  intro x y h
  unfold val at h
  by_cases hb : x.b = y.b
  · have ha : (x.a : ℝ) = (y.a : ℝ) := by rw [hb] at h; linarith
    exact ext_ab (by exact_mod_cast ha) hb
  · exfalso
    have hbR : (y.b : ℝ) - (x.b : ℝ) ≠ 0 := by
      intro hc
      apply hb
      have : (x.b : ℝ) = (y.b : ℝ) := by linarith
      exact_mod_cast this
    apply irrational_sqrt_two
    refine ⟨(x.a - y.a) / (y.b - x.b), ?_⟩
    push_cast
    field_simp
    linarith

theorem eq_iff {x y : Q2} : x = y ↔ x.val = y.val :=
  ⟨fun h => by rw [h], fun h => val_injective h⟩

instance : Preorder Q2 where
  le_refl x := le_iff.mpr le_rfl
  le_trans x y z hxy hyz := le_iff.mpr ((le_iff.mp hxy).trans (le_iff.mp hyz))
  lt_iff_le_not_le x y := by
    rw [lt_iff, le_iff, le_iff]
    exact lt_iff_le_not_le

instance : PartialOrder Q2 where
  le_antisymm _ _ hxy hyx := val_injective (le_antisymm (le_iff.mp hxy) (le_iff.mp hyx))

instance : LinearOrder Q2 where
  le_total x y := by
    rcases le_total x.val y.val with h | h
    · exact Or.inl (le_iff.mpr h)
    · exact Or.inr (le_iff.mpr h)
  decidableLE := inferInstance
  decidableEq := inferInstance
  decidableLT := inferInstance

theorem add_le_add {x y z w : Q2} (h1 : x ≤ y) (h2 : z ≤ w) : x + z ≤ y + w := by
  rw [le_iff] at h1 h2 ⊢
  rw [val_add, val_add]
  linarith

theorem add_nonneg {x y : Q2} (hx : 0 ≤ x) (hy : 0 ≤ y) : 0 ≤ x + y := by
  rw [le_iff] at hx hy ⊢
  rw [val_add]
  rw [val_zero] at hx hy ⊢
  linarith

theorem addComm (x y : Q2) : x + y = y + x :=
  val_injective (by rw [val_add, val_add]; ring)

theorem addAssoc (x y z : Q2) : x + y + z = x + (y + z) :=
  val_injective (by rw [val_add, val_add, val_add, val_add]; ring)

theorem addZero (x : Q2) : x + 0 = x :=
  val_injective (by rw [val_add, val_zero]; ring)

theorem zeroAdd (x : Q2) : 0 + x = x :=
  val_injective (by rw [val_add, val_zero]; ring)

theorem le_add_of_nonneg_left {x e : Q2} (h : 0 ≤ e) : x ≤ e + x := by
  rw [le_iff]
  rw [le_iff, val_zero] at h
  rw [val_add]
  linarith

end Q2

/-! ### Cells, the priority queue, and the grid

Cells are integer coordinate pairs.  Python's `heapq` stores `(cost, cell)`
tuples and `heappop` returns the minimum under the lexicographic tuple
order, so the queue is modelled as a plain list whose pop operation
extracts the first minimal element under that order. -/

abbrev Cell : Type := ℤ × ℤ

/-- Lexicographic order test on cells, mirroring Python tuple comparison. -/
def cellLeb (p q : Cell) : Bool :=
  decide (p.1 < q.1) || (decide (p.1 = q.1) && decide (p.2 ≤ q.2))

/-- Lexicographic order test on `(cost, cell)` queue entries. -/
def pairLeb (x y : Q2 × Cell) : Bool :=
  decide (x.1 < y.1) || (decide (x.1 = y.1) && cellLeb x.2 y.2)

/-- Pop the first minimal element of a list under the boolean order `le`,
returning it together with the remaining elements.  This models `heappop`
on a binary heap: the popped element is minimal, and one occurrence of it
is removed. -/
def popMin {α : Type} (le : α → α → Bool) : List α → Option (α × List α)
  | [] => none
  | x :: xs =>
    match popMin le xs with
    | none => some (x, xs)
    | some (m, rest) => if le x m then some (x, xs) else some (m, x :: rest)

theorem popMin_none_iff {α : Type} {le : α → α → Bool} {l : List α} :
    popMin le l = none ↔ l = [] := by
  cases l with
  | nil => simp [popMin]
  | cons x xs =>
    simp only [popMin]
    constructor
    · intro h
      rcases hp : popMin le xs with _ | ⟨m, rest⟩ <;> rw [hp] at h <;> dsimp only at h
      · simp at h
      · by_cases hle : le x m = true
        · rw [if_pos hle] at h
          simp at h
        · rw [if_neg hle] at h
          simp at h
    · intro h
      simp at h

theorem popMin_perm {α : Type} {le : α → α → Bool} :
    ∀ {l : List α} {m : α} {rest : List α},
      popMin le l = some (m, rest) → l.Perm (m :: rest) := by
  intro l
  induction l with
  | nil => intro m rest h; simp [popMin] at h
  | cons x xs ih =>
    intro m rest h
    unfold popMin at h
    rcases hp : popMin le xs with _ | ⟨m', rest'⟩ <;> rw [hp] at h <;> dsimp only at h
    · simp at h
      obtain ⟨rfl, rfl⟩ := h
      exact List.Perm.refl _
    · by_cases hle : le x m' = true
      · rw [if_pos hle] at h
        simp at h
        obtain ⟨rfl, rfl⟩ := h
        exact List.Perm.refl _
      · rw [if_neg hle] at h
        simp at h
        obtain ⟨rfl, rfl⟩ := h
        have hperm := ih hp
        exact (hperm.cons x).trans (List.Perm.swap m' x rest')

theorem popMin_min {α : Type} {le : α → α → Bool}
    (htot : ∀ a b, le a b = false → le b a = true)
    (htrans : ∀ a b c, le a b = true → le b c = true → le a c = true) :
    ∀ {l : List α} {m : α} {rest : List α},
      popMin le l = some (m, rest) → ∀ y ∈ l, le m y = true := by
  have hrefl : ∀ a, le a a = true := by
    intro a
    cases h : le a a with
    | false =>
      have h2 := htot a a h
      rw [h] at h2
      exact h2
    | true => rfl
  intro l
  induction l with
  | nil => intro m rest h; simp [popMin] at h
  | cons x xs ih =>
    intro m rest h y hy
    unfold popMin at h
    rcases hp : popMin le xs with _ | ⟨m', rest'⟩ <;> rw [hp] at h <;> dsimp only at h
    · simp only [Option.some.injEq, Prod.mk.injEq] at h
      obtain ⟨h1, h2⟩ := h
      have hxs : xs = [] := popMin_none_iff.mp hp
      subst hxs
      rw [← h1]
      rcases List.mem_cons.mp hy with heq | hy'
      · rw [heq]
        exact hrefl x
      · simp at hy'
    · by_cases hle : le x m' = true
      · rw [if_pos hle] at h
        simp only [Option.some.injEq, Prod.mk.injEq] at h
        obtain ⟨h1, h2⟩ := h
        rw [← h1]
        rcases List.mem_cons.mp hy with heq | hy'
        · rw [heq]
          exact hrefl x
        · exact htrans _ _ _ hle (ih hp y hy')
      · rw [if_neg hle] at h
        simp only [Option.some.injEq, Prod.mk.injEq] at h
        obtain ⟨h1, h2⟩ := h
        rw [← h1]
        rcases List.mem_cons.mp hy with heq | hy'
        · rw [heq]
          apply htot
          cases hb : le x m' with
          | false => rfl
          | true => exact absurd hb hle
        · exact ih hp y hy'

theorem popMin_mem {α : Type} {le : α → α → Bool} {l : List α} {m : α}
    {rest : List α} (h : popMin le l = some (m, rest)) : m ∈ l :=
  (popMin_perm h).mem_iff.mpr (List.mem_cons_self m rest)

theorem pairLeb_iff (x y : Q2 × Cell) :
    pairLeb x y = true ↔
      (x.1 < y.1 ∨ (x.1 = y.1 ∧ (x.2.1 < y.2.1 ∨ (x.2.1 = y.2.1 ∧ x.2.2 ≤ y.2.2)))) := by
  unfold pairLeb cellLeb
  simp [Bool.or_eq_true, Bool.and_eq_true, decide_eq_true_iff]

theorem pairLeb_total : ∀ x y : Q2 × Cell, pairLeb x y = false → pairLeb y x = true := by
  intro x y h
  have hn : ¬ (x.1 < y.1 ∨ (x.1 = y.1 ∧ (x.2.1 < y.2.1 ∨ (x.2.1 = y.2.1 ∧ x.2.2 ≤ y.2.2)))) := by
    intro hp
    rw [← pairLeb_iff] at hp
    rw [hp] at h
    cases h
  push_neg at hn
  obtain ⟨h1, h2⟩ := hn
  rw [pairLeb_iff]
  rcases eq_or_lt_of_le h1 with heq | hlt
  · right
    refine ⟨heq, ?_⟩
    have h2' := h2 heq.symm
    push_neg at h2'
    obtain ⟨h3, h4⟩ := h2'
    rcases eq_or_lt_of_le h3 with heq2 | hlt2
    · right
      exact ⟨heq2, le_of_lt (h4 heq2.symm)⟩
    · left
      exact hlt2
  · left
    exact hlt

theorem pairLeb_trans : ∀ x y z : Q2 × Cell,
    pairLeb x y = true → pairLeb y z = true → pairLeb x z = true := by
  intro x y z hxy hyz
  rw [pairLeb_iff] at hxy hyz ⊢
  rcases hxy with h1 | ⟨he1, hc1⟩ <;> rcases hyz with h2 | ⟨he2, hc2⟩
  · left; exact h1.trans h2
  · left; rwa [← he2]
  · left; rwa [he1]
  · right
    refine ⟨he1.trans he2, ?_⟩
    rcases hc1 with h1 | ⟨he1', hc1'⟩ <;> rcases hc2 with h2 | ⟨he2', hc2'⟩
    · left; exact h1.trans h2
    · left; rwa [← he2']
    · left; rwa [he1']
    · right; exact ⟨he1'.trans he2', hc1'.trans hc2'⟩

theorem pairLeb_cost_le {x y : Q2 × Cell} (h : pairLeb x y = true) : x.1 ≤ y.1 := by
  rcases (pairLeb_iff x y).mp h with h1 | ⟨he, _⟩
  · exact le_of_lt h1
  · exact le_of_eq he

/-- The grid data consumed by the engine: a set of wall cells plus the
`spaces` and `waypoints` weight maps (Python dictionaries, modelled as
association lists with first-match lookup). -/
structure Grid where
  walls : List Cell
  spaces : List (Cell × ℚ)
  waypoints : List (Cell × ℚ)

/-- Dictionary lookup (`dict.get`) on an association list. -/
def lookupQ : List (Cell × ℚ) → Cell → Option ℚ
  | [], _ => none
  | (k, v) :: rest, c => if c = k then some v else lookupQ rest c

/-- Weight of a cell: check `spaces` first, fall back to `waypoints`,
exactly as the source looks up `spaces.get(cell)` and then `wayp.get(cell)`. -/
def Grid.weight (g : Grid) (c : Cell) : Option ℚ :=
  match lookupQ g.spaces c with
  | some w => some w
  | none => lookupQ g.waypoints c

/-- The eight relative offsets with their distance factors, in source order:
`[((-1,-1), diag), ((-1, 0), 1), ((0, -1), 1), ((-1, 1), diag),
  ((1, -1), diag), ((1, 0), 1), ((0, 1), 1), ((1, 1), diag)]`. -/
def navOffsets : List (Cell × Q2) :=
  [((-1, -1), Q2.sqrt2), ((-1, 0), 1), ((0, -1), 1), ((-1, 1), Q2.sqrt2),
   ((1, -1), Q2.sqrt2), ((1, 0), 1), ((0, 1), 1), ((1, 1), Q2.sqrt2)]

/-- The candidate adjacent points of a cell with their distance factors
(`adj_points` in the source). -/
def adjPoints (cell : Cell) : List (Cell × Q2) :=
  navOffsets.map (fun p => ((p.1.1 + cell.1, p.1.2 + cell.2), p.2))

/-- The neighbor scan of `navigation_edges`: walls are skipped, and a
non-wall neighbor whose weight is missing (or a missing weight for the
queried cell itself) makes the whole call fail — Python raises a
`TypeError` when adding `None`, modelled by `none`. -/
def navLoop (level : Grid) (weig : Option ℚ) : List (Cell × Q2) → Option (List (Q2 × Cell))
  | [] => some []
  | (point, dist) :: rest =>
    if point ∈ level.walls then navLoop level weig rest
    else
      match Grid.weight level point, weig with
      | some pw, some w =>
        (navLoop level weig rest).map (fun r => (dist * Q2.ofQ (pw + w) / 2, point) :: r)
      | _, _ => none

/-- `navigation_edges(level, cell)` from the source.  Returns `some []` for a
wall cell, `none` when a weight lookup fails (the Python exception), and
otherwise the list of `(cost, point)` pairs in scan order with
`cost = dist * (point_weight + weig) / 2`. -/
def navigation_edges (level : Grid) (cell : Cell) : Option (List (Q2 × Cell)) :=
  if cell ∈ level.walls then some []
  else navLoop level (Grid.weight level cell) (adjPoints cell)

/-- The adjacency function actually passed to the engine; on well-formed
grids it agrees with `navigation_edges` (which never fails there). -/
def navAdj (level : Grid) (cell : Cell) : List (Q2 × Cell) :=
  (navigation_edges level cell).getD []

/-! ### The search engine

`tracking` maps each discovered cell to its best known cost and
predecessor (`None` for the start).  The loop is given explicit fuel;
`none` as the outer result means the fuel ran out, which never happens
for well-formed grids (the termination theorem below), while `some none`
is the Python `None` returned when the queue empties. -/

abbrev Tracking := Cell → Option (Q2 × Option Cell)

abbrev CostMap := Cell → Option Q2

/-- Dictionary write `tracking[k] = v`. -/
def updT (t : Tracking) (k : Cell) (v : Q2 × Option Cell) : Tracking :=
  fun c => if c = k then some v else t c

/-- Dictionary write for the cost-only table. -/
def updA (t : CostMap) (k : Cell) (v : Q2) : CostMap :=
  fun c => if c = k then some v else t c

/-- The inner `for cost, node in adj(graph, currNode)` loop of
`dijkstras_shortest_path`: relax each edge, re-reading
`tracking[currNode][0]` at every step as the source does.  (The `none`
branch of the `base` lookup is unreachable: every popped node is
tracked.) -/
def relaxList (adjL : List (Q2 × Cell)) (curr : Cell) (t : Tracking) (q : List (Q2 × Cell)) :
    Tracking × List (Q2 × Cell) :=
  match adjL with
  | [] => (t, q)
  | (cost, node) :: rest =>
    let base : Q2 := match t curr with | some pr => pr.1 | none => 0
    let pathcost := cost + base
    match t node with
    | none => relaxList rest curr (updT t node (pathcost, some curr)) ((pathcost, node) :: q)
    | some pr =>
      if pathcost < pr.1 then
        relaxList rest curr (updT t node (pathcost, some curr)) ((pathcost, node) :: q)
      else relaxList rest curr t q

/-- Path reconstruction: follow predecessor links from the destination,
collecting nodes, until a node with no predecessor is reached (the
start).  The source's `while tracking[currNode][1]` loop; the list is
returned in the order built, destination first. -/
def reconstruct (fuel : ℕ) (t : Tracking) (c : Cell) : Option (List Cell) :=
  match t c with
  | none => none
  | some (_, none) => some [c]
  | some (_, some p) =>
    match fuel with
    | 0 => none
    | fuel' + 1 => (reconstruct fuel' t p).map (fun l => c :: l)

/-- The main `while queue` loop of `dijkstras_shortest_path`. -/
def dijkstraLoop (adjF : Cell → List (Q2 × Cell)) (destination : Cell) :
    ℕ → Tracking → List (Q2 × Cell) → Option (Option (List Cell))
  | 0, _, _ => none
  | fuel + 1, t, q =>
    match popMin pairLeb q with
    | none => some none
    | some ((_, currNode), rest) =>
      if currNode = destination then
        match reconstruct fuel t currNode with
        | none => none
        | some l => some (some l)
      else
        let s := relaxList (adjF currNode) currNode t rest
        dijkstraLoop adjF destination fuel s.1 s.2

/-- `dijkstras_shortest_path(initial_position, destination, graph, adj)`,
with explicit fuel for the loop. -/
def dijkstras_shortest_path (fuel : ℕ) (initial_position destination : Cell)
    (graph : Grid) (adj : Grid → Cell → List (Q2 × Cell)) : Option (Option (List Cell)) :=
  dijkstraLoop (adj graph) destination fuel
    (updT (fun _ => none) initial_position (0, none)) [(0, initial_position)]

/-- The inner relaxation loop of `dijkstras_shortest_path_to_all`
(cost-only tracking, no predecessors). -/
def relaxListAll (adjL : List (Q2 × Cell)) (curr : Cell) (t : CostMap) (q : List (Q2 × Cell)) :
    CostMap × List (Q2 × Cell) :=
  match adjL with
  | [] => (t, q)
  | (cost, node) :: rest =>
    let base : Q2 := match t curr with | some c => c | none => 0
    let pathcost := cost + base
    match t node with
    | none => relaxListAll rest curr (updA t node pathcost) ((pathcost, node) :: q)
    | some cn =>
      if pathcost < cn then
        relaxListAll rest curr (updA t node pathcost) ((pathcost, node) :: q)
      else relaxListAll rest curr t q

/-- The main loop of `dijkstras_shortest_path_to_all`; returns the whole
tracking table once the queue empties. -/
def dijkstraAllLoop (adjF : Cell → List (Q2 × Cell)) :
    ℕ → CostMap → List (Q2 × Cell) → Option CostMap
  | 0, _, _ => none
  | fuel + 1, t, q =>
    match popMin pairLeb q with
    | none => some t
    | some ((_, currNode), rest) =>
      let s := relaxListAll (adjF currNode) currNode t rest
      dijkstraAllLoop adjF fuel s.1 s.2

/-- `dijkstras_shortest_path_to_all(initial_position, graph, adj)`, with
explicit fuel for the loop. -/
def dijkstras_shortest_path_to_all (fuel : ℕ) (initial_position : Cell)
    (graph : Grid) (adj : Grid → Cell → List (Q2 × Cell)) : Option CostMap :=
  dijkstraAllLoop (adj graph) fuel
    (updA (fun _ => none) initial_position 0) [(0, initial_position)]

/-- Walks through the graph presented by an adjacency function, recording
the vertex list and the summed edge cost: `WalkL adjF a l z w` says `l`
runs from `a` to `z` along edges of `adjF` with total cost `w`. -/
inductive WalkL (adjF : Cell → List (Q2 × Cell)) : Cell → List Cell → Cell → Q2 → Prop
  | nil (a : Cell) : WalkL adjF a [a] a 0
  | cons {a b z : Cell} {e w : Q2} {l : List Cell}
      (he : (e, b) ∈ adjF a) (hw : WalkL adjF b l z w) : WalkL adjF a (a :: l) z (e + w)

/-! ### Walks and the engine invariant

The correctness argument is the standard one for lazy-deletion Dijkstra:
we carry a ghost set `S` of settled cells.  Settled cells hold their
final, optimal cost and have had all their edges relaxed against it;
every tracked-but-unsettled cell still has a live queue entry at (or
below) its tracked cost.  The finite set `V` is a closed superset of the
reachable cells, `G` an arbitrary predicate preserved by edge targets
(instantiated with "is not a wall"). -/

theorem walk_head {adjF : Cell → List (Q2 × Cell)} :
    ∀ {a : Cell} {l : List Cell} {z : Cell} {w : Q2},
      WalkL adjF a l z w → l.head? = some a := by
  intro a l z w hw
  cases hw with
  | nil a => rfl
  | cons he hw => rfl

theorem walk_mem {adjF : Cell → List (Q2 × Cell)} {V : Finset Cell}
    (hclosed : ∀ a ∈ V, ∀ p ∈ adjF a, p.2 ∈ V) :
    ∀ {a : Cell} {l : List Cell} {z : Cell} {w : Q2},
      WalkL adjF a l z w → a ∈ V → z ∈ V := by
  intro a l z w hw
  induction hw with
  | nil a => exact fun h => h
  | cons he _ ih => exact fun ha => ih (hclosed _ ha _ he)

theorem walk_nonneg {adjF : Cell → List (Q2 × Cell)} {V : Finset Cell}
    (hclosed : ∀ a ∈ V, ∀ p ∈ adjF a, p.2 ∈ V)
    (hpos : ∀ a ∈ V, ∀ p ∈ adjF a, 0 < p.1) :
    ∀ {a : Cell} {l : List Cell} {z : Cell} {w : Q2},
      WalkL adjF a l z w → a ∈ V → 0 ≤ w := by
  intro a l z w hw
  induction hw with
  | nil a => exact fun _ => le_refl 0
  | cons he _ ih =>
    intro ha
    have h1 := hpos _ ha _ he
    have h2 := ih (hclosed _ ha _ he)
    exact Q2.add_nonneg (le_of_lt h1) h2

theorem walk_snoc {adjF : Cell → List (Q2 × Cell)} :
    ∀ {a : Cell} {l : List Cell} {p : Cell} {w : Q2}, WalkL adjF a l p w →
      ∀ {e : Q2} {z : Cell}, (e, z) ∈ adjF p → WalkL adjF a (l ++ [z]) z (w + e) := by
  intro a l p w hw
  induction hw with
  | nil a =>
    intro e z he
    have h := WalkL.cons he (WalkL.nil z)
    rw [Q2.addZero] at h
    rw [Q2.zeroAdd]
    exact h
  | cons he' _ ih =>
    intro e z he
    have h := WalkL.cons he' (ih he)
    rw [Q2.addAssoc]
    simpa using h

/-- Invariant of the Dijkstra loop state `(t, q)` with ghost settled set `S`. -/
structure DInv (adjF : Cell → List (Q2 × Cell)) (V : Finset Cell) (G : Cell → Prop)
    (start : Cell) (t : Tracking) (q : List (Q2 × Cell)) (S : Finset Cell) : Prop where
  dom : ∀ x, t x ≠ none → x ∈ V
  tgt : ∀ x, t x ≠ none → x = start ∨ G x
  nn : ∀ x cx πx, t x = some (cx, πx) → 0 ≤ cx
  tstart : t start = some (0, none)
  prednone : ∀ x cx, t x = some (cx, none) → x = start
  chain : ∀ x cx p, t x = some (cx, some p) →
    ∃ e cp πp, (e, x) ∈ adjF p ∧ t p = some (cp, πp) ∧ e + cp ≤ cx
  qtrack : ∀ en ∈ q, ∃ c πc, t en.2 = some (c, πc) ∧ c ≤ en.1
  settled : ∀ x ∈ S, ∃ cx πx, t x = some (cx, πx) ∧
    (∀ l w, WalkL adjF start l x w → cx ≤ w) ∧
    (∀ e b, (e, b) ∈ adjF x → ∃ cb πb, t b = some (cb, πb) ∧ cb ≤ e + cx)
  unsett : ∀ x cx πx, x ∉ S → t x = some (cx, πx) → ∃ c', (c', x) ∈ q ∧ c' ≤ cx
  startq : start ∈ S ∨ ((0 : Q2), start) ∈ q
  sound : ∀ x cx πx, t x = some (cx, πx) → ∃ l w, WalkL adjF start l x w ∧ w ≤ cx
  sdom : ∀ x ∈ S, t x ≠ none

theorem dinv_init {adjF : Cell → List (Q2 × Cell)} {V : Finset Cell} {G : Cell → Prop}
    {start : Cell} (hstart : start ∈ V) :
    DInv adjF V G start (updT (fun _ => none) start (0, none)) [(0, start)] ∅ := by
  have hupd : ∀ x, updT (fun _ => none) start ((0 : Q2), none) x
      = if x = start then some ((0 : Q2), none) else none := fun x => rfl
  constructor
  · intro x hx
    rw [hupd] at hx
    by_cases h : x = start
    · rw [h]; exact hstart
    · rw [if_neg h] at hx; exact absurd rfl hx
  · intro x hx
    rw [hupd] at hx
    by_cases h : x = start
    · exact Or.inl h
    · rw [if_neg h] at hx; exact absurd rfl hx
  · intro x cx πx hx
    rw [hupd] at hx
    by_cases h : x = start
    · rw [if_pos h] at hx
      injection hx with hx
      injection hx with h1 h2
      exact le_of_eq h1
    · rw [if_neg h] at hx; cases hx
  · rw [hupd, if_pos rfl]
  · intro x cx hx
    rw [hupd] at hx
    by_cases h : x = start
    · exact h
    · rw [if_neg h] at hx; cases hx
  · intro x cx p hx
    rw [hupd] at hx
    by_cases h : x = start
    · rw [if_pos h] at hx
      injection hx with hx
      injection hx with h1 h2
      cases h2
    · rw [if_neg h] at hx; cases hx
  · intro en hen
    rcases List.mem_singleton.mp hen with rfl
    refine ⟨0, none, ?_, le_refl 0⟩
    rw [hupd, if_pos rfl]
  · intro x hx
    exact absurd hx (Finset.not_mem_empty x)
  · intro x cx πx _ hx
    rw [hupd] at hx
    by_cases h : x = start
    · rw [if_pos h] at hx
      injection hx with hx
      injection hx with h1 h2
      refine ⟨0, ?_, ?_⟩
      · rw [h]; exact List.mem_singleton_self _
      · exact le_of_eq h1
    · rw [if_neg h] at hx; cases hx
  · right
    exact List.mem_singleton_self _
  · intro x cx πx hx
    rw [hupd] at hx
    by_cases h : x = start
    · rw [if_pos h] at hx
      injection hx with hx
      injection hx with h1 h2
      refine ⟨[start], 0, ?_, ?_⟩
      · rw [h]; exact WalkL.nil start
      · exact le_of_eq h1
    · rw [if_neg h] at hx; cases hx
  · intro x hx
    exact absurd hx (Finset.not_mem_empty x)

/-- Everything one pass of the relaxation loop guarantees, relative to the
cost `ca` tracked for the expanded cell `curr` (which the pass never
changes, since edge costs are nonnegative). -/
structure RelaxFacts (adjL : List (Q2 × Cell)) (curr : Cell) (ca : Q2)
    (t t' : Tracking) (q q' : List (Q2 × Cell)) : Prop where
  self : t' curr = t curr
  alt : ∀ x, t' x = t x ∨ ∃ e, (e, x) ∈ adjL ∧ t' x = some (e + ca, some curr) ∧
    (∀ cx πx, t x = some (cx, πx) → e + ca < cx)
  relaxed : ∀ e b, (e, b) ∈ adjL → ∃ cb πb, t' b = some (cb, πb) ∧ cb ≤ e + ca
  mono : ∀ x cx πx, t x = some (cx, πx) → ∃ cx' πx', t' x = some (cx', πx') ∧ cx' ≤ cx
  domg : ∀ x, t' x ≠ none → t x ≠ none ∨ ∃ e, (e, x) ∈ adjL
  qsub : ∀ en, en ∈ q → en ∈ q'
  qnew : ∀ en, en ∈ q' → en ∈ q ∨ ∃ cb πb, t' en.2 = some (cb, πb) ∧ cb ≤ en.1
  qlen : q'.length ≤ adjL.length + q.length
  updEntry : ∀ x, ¬ (t' x = t x) → ∃ cx πx, t' x = some (cx, πx) ∧ (cx, x) ∈ q'

theorem updT_self (t : Tracking) (k : Cell) (v : Q2 × Option Cell) :
    updT t k v k = some v := by
  unfold updT
  rw [if_pos rfl]

theorem updT_other (t : Tracking) (k : Cell) (v : Q2 × Option Cell) {x : Cell}
    (h : x ≠ k) : updT t k v x = t x := by
  unfold updT
  rw [if_neg h]

theorem relax_spec {curr : Cell} {ca : Q2} {πa : Option Cell} :
    ∀ (adjL : List (Q2 × Cell)) (t : Tracking) (q : List (Q2 × Cell)),
      (∀ p ∈ adjL, 0 ≤ p.1) → t curr = some (ca, πa) →
      RelaxFacts adjL curr ca t (relaxList adjL curr t q).1 q (relaxList adjL curr t q).2 := by
  intro adjL
  induction adjL with
  | nil =>
    intro t q hnn ht
    refine ⟨rfl, fun x => Or.inl rfl, ?_, ?_, fun x h => Or.inl h,
      fun en h => h, fun en h => Or.inl h, by simp [relaxList], fun x h => absurd rfl h⟩
    · intro e b h
      simp at h
    · intro x cx πx h
      exact ⟨cx, πx, h, le_refl cx⟩
  | cons hd rest ih =>
    obtain ⟨cost, node⟩ := hd
    intro t q hnn ht
    have hcost : 0 ≤ cost := hnn (cost, node) (List.mem_cons_self _ _)
    have hstep : relaxList ((cost, node) :: rest) curr t q =
        match t node with
        | none => relaxList rest curr (updT t node (cost + ca, some curr)) ((cost + ca, node) :: q)
        | some pr =>
          if cost + ca < pr.1 then
            relaxList rest curr (updT t node (cost + ca, some curr)) ((cost + ca, node) :: q)
          else relaxList rest curr t q := by
      conv_lhs => rw [relaxList]
      rw [ht]
    rcases hnode : t node with _ | ⟨prc, prπ⟩ <;> rw [hnode] at hstep <;> dsimp only at hstep
    · -- newly discovered neighbor: tracked and pushed
      have hne : node ≠ curr := by
        intro h
        rw [h, ht] at hnode
        cases hnode
      have ht1 : updT t node (cost + ca, some curr) curr = some (ca, πa) := by
        rw [updT_other t node _ (Ne.symm hne)]
        exact ht
      have R := ih (updT t node (cost + ca, some curr)) ((cost + ca, node) :: q)
        (fun p hp => hnn p (List.mem_cons_of_mem _ hp)) ht1
      rw [hstep]
      constructor
      · rw [R.self]
        exact ht1.trans ht.symm
      · intro x
        rcases R.alt x with h | ⟨e, hmem, hx, hdec⟩
        · by_cases hxn : x = node
          · subst hxn
            right
            refine ⟨cost, List.mem_cons_self _ _, ?_, ?_⟩
            · rw [h, updT_self]
            · intro cx πx hcx
              rw [hnode] at hcx
              cases hcx
          · left
            rw [h, updT_other t node _ hxn]
        · right
          refine ⟨e, List.mem_cons_of_mem _ hmem, hx, ?_⟩
          intro cx πx hcx
          by_cases hxn : x = node
          · subst hxn
            rw [hnode] at hcx
            cases hcx
          · have h1 : updT t node (cost + ca, some curr) x = some (cx, πx) := by
              rw [updT_other t node _ hxn]
              exact hcx
            exact hdec cx πx h1
      · intro e b hmem
        rcases List.mem_cons.mp hmem with heq | hmem'
        · injection heq with h1 h2
          rw [h1, h2]
          exact R.mono _ _ _ (updT_self t _ _)
        · exact R.relaxed e b hmem'
      · intro x cx πx hcx
        by_cases hxn : x = node
        · rw [hxn, hnode] at hcx
          cases hcx
        · have hx1 : updT t node (cost + ca, some curr) x = some (cx, πx) := by
            rw [updT_other t node _ hxn]
            exact hcx
          exact R.mono x cx πx hx1
      · intro x hx
        rcases R.domg x hx with h | ⟨e, hmem⟩
        · by_cases hxn : x = node
          · exact Or.inr ⟨cost, by rw [hxn]; exact List.mem_cons_self _ _⟩
          · rw [updT_other t node _ hxn] at h
            exact Or.inl h
        · exact Or.inr ⟨e, List.mem_cons_of_mem _ hmem⟩
      · intro en hen
        exact R.qsub en (List.mem_cons_of_mem _ hen)
      · intro en hen
        rcases R.qnew en hen with h | h
        · rcases List.mem_cons.mp h with heq | hmem'
          · right
            subst heq
            exact R.mono _ (cost + ca) (some curr) (updT_self t _ _)
          · exact Or.inl hmem'
        · exact Or.inr h
      · have := R.qlen
        simp only [List.length_cons] at *
        omega
      · intro x hx
        by_cases hchange : (relaxList rest curr (updT t node (cost + ca, some curr))
            ((cost + ca, node) :: q)).1 x = updT t node (cost + ca, some curr) x
        · have hxn : x = node := by
            by_contra hxn
            rw [updT_other t node _ hxn] at hchange
            exact hx hchange
          subst hxn
          refine ⟨cost + ca, some curr, ?_, ?_⟩
          · rw [hchange, updT_self]
          · exact R.qsub _ (List.mem_cons_self _ _)
        · exact R.updEntry x hchange
    · -- already tracked neighbor
      by_cases hlt : cost + ca < prc
      · rw [if_pos hlt] at hstep
        have hne : node ≠ curr := by
          intro h
          rw [h, ht] at hnode
          injection hnode with hnode
          injection hnode with hn1 hn2
          rw [← hn1] at hlt
          have h2 : ca ≤ cost + ca := Q2.le_add_of_nonneg_left hcost
          exact absurd hlt (not_lt.mpr h2)
        have ht1 : updT t node (cost + ca, some curr) curr = some (ca, πa) := by
          rw [updT_other t node _ (Ne.symm hne)]
          exact ht
        have R := ih (updT t node (cost + ca, some curr)) ((cost + ca, node) :: q)
          (fun p hp => hnn p (List.mem_cons_of_mem _ hp)) ht1
        rw [hstep]
        constructor
        · rw [R.self]
          exact ht1.trans ht.symm
        · intro x
          rcases R.alt x with h | ⟨e, hmem, hx, hdec⟩
          · by_cases hxn : x = node
            · subst hxn
              right
              refine ⟨cost, List.mem_cons_self _ _, ?_, ?_⟩
              · rw [h, updT_self]
              · intro cx πx hcx
                rw [hnode] at hcx
                injection hcx with hcx
                injection hcx with h1 h2
                rw [← h1]
                exact hlt
            · left
              rw [h, updT_other t node _ hxn]
          · right
            refine ⟨e, List.mem_cons_of_mem _ hmem, hx, ?_⟩
            intro cx πx hcx
            by_cases hxn : x = node
            · subst hxn
              rw [hnode] at hcx
              injection hcx with hcx
              injection hcx with h1 h2
              have h3 := hdec (cost + ca) (some curr) (updT_self t _ _)
              rw [← h1]
              exact h3.trans hlt
            · have h1 : updT t node (cost + ca, some curr) x = some (cx, πx) := by
                rw [updT_other t node _ hxn]
                exact hcx
              exact hdec cx πx h1
        · intro e b hmem
          rcases List.mem_cons.mp hmem with heq | hmem'
          · injection heq with h1 h2
            rw [h1, h2]
            exact R.mono _ _ _ (updT_self t _ _)
          · exact R.relaxed e b hmem'
        · intro x cx πx hcx
          by_cases hxn : x = node
          · rw [hxn, hnode] at hcx
            injection hcx with hcx
            injection hcx with h1 h2
            obtain ⟨cx', πx', hx', hle'⟩ := R.mono node (cost + ca) (some curr) (updT_self t _ _)
            refine ⟨cx', πx', ?_, ?_⟩
            · rw [hxn]
              exact hx'
            · rw [← h1]
              exact hle'.trans (le_of_lt hlt)
          · have hx1 : updT t node (cost + ca, some curr) x = some (cx, πx) := by
              rw [updT_other t node _ hxn]
              exact hcx
            exact R.mono x cx πx hx1
        · intro x hx
          rcases R.domg x hx with h | ⟨e, hmem⟩
          · by_cases hxn : x = node
            · exact Or.inr ⟨cost, by rw [hxn]; exact List.mem_cons_self _ _⟩
            · rw [updT_other t node _ hxn] at h
              exact Or.inl h
          · exact Or.inr ⟨e, List.mem_cons_of_mem _ hmem⟩
        · intro en hen
          exact R.qsub en (List.mem_cons_of_mem _ hen)
        · intro en hen
          rcases R.qnew en hen with h | h
          · rcases List.mem_cons.mp h with heq | hmem'
            · right
              subst heq
              exact R.mono _ (cost + ca) (some curr) (updT_self t _ _)
            · exact Or.inl hmem'
          · exact Or.inr h
        · have := R.qlen
          simp only [List.length_cons] at *
          omega
        · intro x hx
          by_cases hchange : (relaxList rest curr (updT t node (cost + ca, some curr))
              ((cost + ca, node) :: q)).1 x = updT t node (cost + ca, some curr) x
          · have hxn : x = node := by
              by_contra hxn
              rw [updT_other t node _ hxn] at hchange
              exact hx hchange
            subst hxn
            refine ⟨cost + ca, some curr, ?_, ?_⟩
            · rw [hchange, updT_self]
            · exact R.qsub _ (List.mem_cons_self _ _)
          · exact R.updEntry x hchange
      · rw [if_neg hlt] at hstep
        have R := ih t q (fun p hp => hnn p (List.mem_cons_of_mem _ hp)) ht
        rw [hstep]
        constructor
        · exact R.self
        · intro x
          rcases R.alt x with h | ⟨e, hmem, hx, hdec⟩
          · exact Or.inl h
          · exact Or.inr ⟨e, List.mem_cons_of_mem _ hmem, hx, hdec⟩
        · intro e b hmem
          rcases List.mem_cons.mp hmem with heq | hmem'
          · injection heq with h1 h2
            subst h1
            subst h2
            obtain ⟨cb, πb, hb, hble⟩ := R.mono b prc prπ hnode
            exact ⟨cb, πb, hb, hble.trans (not_lt.mp hlt)⟩
          · exact R.relaxed e b hmem'
        · exact R.mono
        · intro x hx
          rcases R.domg x hx with h | ⟨e, hmem⟩
          · exact Or.inl h
          · exact Or.inr ⟨e, List.mem_cons_of_mem _ hmem⟩
        · exact R.qsub
        · intro en hen
          exact R.qnew en hen
        · have := R.qlen
          simp only [List.length_cons] at *
          omega
        · exact R.updEntry

/-- When every edge of the expanded cell has already been relaxed against
its tracked cost, the relaxation pass changes nothing. -/
theorem relax_noop {curr : Cell} {ca : Q2} {πa : Option Cell} :
    ∀ (adjL : List (Q2 × Cell)) (t : Tracking) (q : List (Q2 × Cell)),
      t curr = some (ca, πa) →
      (∀ e b, (e, b) ∈ adjL → ∃ cb πb, t b = some (cb, πb) ∧ cb ≤ e + ca) →
      relaxList adjL curr t q = (t, q) := by
  intro adjL
  induction adjL with
  | nil =>
    intro t q ht hrel
    rfl
  | cons hd rest ih =>
    obtain ⟨cost, node⟩ := hd
    intro t q ht hrel
    obtain ⟨cb, πb, hb, hble⟩ := hrel cost node (List.mem_cons_self _ _)
    have hstep : relaxList ((cost, node) :: rest) curr t q =
        if cost + ca < cb then
          relaxList rest curr (updT t node (cost + ca, some curr)) ((cost + ca, node) :: q)
        else relaxList rest curr t q := by
      conv_lhs => rw [relaxList]
      rw [ht, hb]
    rw [hstep, if_neg (not_lt.mpr hble)]
    exact ih t q ht (fun e b hmem => hrel e b (List.mem_cons_of_mem _ hmem))

/-- Any walk from a settled cell either ends settled at no extra tracked
cost, or crosses the queue frontier at an entry no costlier than the walk. -/
theorem dinv_key_aux {adjF : Cell → List (Q2 × Cell)} {V : Finset Cell} {G : Cell → Prop}
    {start : Cell} {t : Tracking} {q : List (Q2 × Cell)} {S : Finset Cell}
    (inv : DInv adjF V G start t q S)
    (hclosed : ∀ a ∈ V, ∀ p ∈ adjF a, p.2 ∈ V)
    (hpos : ∀ a ∈ V, ∀ p ∈ adjF a, 0 < p.1) :
    ∀ {a : Cell} {l : List Cell} {z : Cell} {w : Q2}, WalkL adjF a l z w →
      a ∈ S → ∀ ca πa, t a = some (ca, πa) →
      (z ∈ S ∧ ∃ cz πz, t z = some (cz, πz) ∧ cz ≤ ca + w) ∨
      (∃ b cb, (cb, b) ∈ q ∧ cb ≤ ca + w) := by
  intro a l z w hw
  induction hw with
  | nil a =>
    intro hS ca πa ht
    left
    exact ⟨hS, ca, πa, ht, le_of_eq (Q2.addZero ca).symm⟩
  | @cons a b z e w l he hw ih =>
    intro hS ca πa ht
    obtain ⟨ca', πa', hta', hopt', hrel'⟩ := inv.settled a hS
    rw [ht] at hta'
    injection hta' with hta'
    injection hta' with h1 h2
    obtain ⟨cb, πb, htb, hcb⟩ := hrel' e b he
    rw [← h1] at hcb
    by_cases hbS : b ∈ S
    · rcases ih hbS cb πb htb with ⟨hzS, cz, πz, htz, hcz⟩ | ⟨b', cb', hq', hle'⟩
      · left
        refine ⟨hzS, cz, πz, htz, ?_⟩
        rw [Q2.le_iff] at hcz hcb ⊢
        simp only [Q2.val_add] at *
        linarith
      · right
        refine ⟨b', cb', hq', ?_⟩
        rw [Q2.le_iff] at hle' hcb ⊢
        simp only [Q2.val_add] at *
        linarith
    · obtain ⟨c', hq', hc'⟩ := inv.unsett b cb πb hbS htb
      right
      refine ⟨b, c', hq', ?_⟩
      have hbV : b ∈ V := inv.dom b (by rw [htb]; simp)
      have hw0 : 0 ≤ w := walk_nonneg hclosed hpos hw hbV
      rw [Q2.le_iff] at hc' hcb hw0 ⊢
      simp only [Q2.val_add, Q2.val_zero] at *
      linarith

/-- Any walk from the start either ends settled at no extra tracked cost,
or crosses the queue at an entry no costlier than the walk. -/
theorem dinv_key {adjF : Cell → List (Q2 × Cell)} {V : Finset Cell} {G : Cell → Prop}
    {start : Cell} {t : Tracking} {q : List (Q2 × Cell)} {S : Finset Cell}
    (inv : DInv adjF V G start t q S)
    (hclosed : ∀ a ∈ V, ∀ p ∈ adjF a, p.2 ∈ V)
    (hpos : ∀ a ∈ V, ∀ p ∈ adjF a, 0 < p.1)
    (hstart : start ∈ V) :
    ∀ {z : Cell} {l : List Cell} {w : Q2}, WalkL adjF start l z w →
      (z ∈ S ∧ ∃ cz πz, t z = some (cz, πz) ∧ cz ≤ w) ∨
      (∃ b cb, (cb, b) ∈ q ∧ cb ≤ w) := by
  intro z l w hw
  rcases inv.startq with hS | hq
  · rcases dinv_key_aux inv hclosed hpos hw hS 0 none inv.tstart with
      ⟨hzS, cz, πz, htz, hcz⟩ | ⟨b, cb, hq', hcb⟩
    · left
      refine ⟨hzS, cz, πz, htz, ?_⟩
      rw [Q2.le_iff] at hcz ⊢
      simp only [Q2.val_add, Q2.val_zero] at hcz
      linarith
    · right
      refine ⟨b, cb, hq', ?_⟩
      rw [Q2.le_iff] at hcb ⊢
      simp only [Q2.val_add, Q2.val_zero] at hcb
      linarith
  · right
    exact ⟨start, 0, hq, walk_nonneg hclosed hpos hw hstart⟩

/-- The popped entry's cell is tracked at an optimal cost: no walk from the
start reaches it more cheaply. -/
theorem dinv_pop_opt {adjF : Cell → List (Q2 × Cell)} {V : Finset Cell} {G : Cell → Prop}
    {start : Cell} {t : Tracking} {q : List (Q2 × Cell)} {S : Finset Cell}
    {c : Q2} {a : Cell} {rest : List (Q2 × Cell)}
    (inv : DInv adjF V G start t q S)
    (hclosed : ∀ a ∈ V, ∀ p ∈ adjF a, p.2 ∈ V)
    (hpos : ∀ a ∈ V, ∀ p ∈ adjF a, 0 < p.1)
    (hstart : start ∈ V)
    (hpop : popMin pairLeb q = some ((c, a), rest)) :
    ∃ ca πa, t a = some (ca, πa) ∧ ca ≤ c ∧
      ∀ l w, WalkL adjF start l a w → ca ≤ w := by
  have hmem : (c, a) ∈ q := popMin_mem hpop
  obtain ⟨ca, πa, hta, hca⟩ := inv.qtrack _ hmem
  refine ⟨ca, πa, hta, hca, ?_⟩
  intro l w hw
  rcases dinv_key inv hclosed hpos hstart hw with ⟨_, cz, πz, htz, hcz⟩ | ⟨b, cb, hqb, hcb⟩
  · rw [hta] at htz
    injection htz with h
    injection h with h1 h2
    rw [h1]
    exact hcz
  · have hmin := popMin_min pairLeb_total pairLeb_trans hpop _ hqb
    have h1 : c ≤ cb := pairLeb_cost_le hmin
    exact hca.trans (h1.trans hcb)

/-- One loop iteration (pop plus relaxation pass) preserves the invariant,
settling at most the popped cell, and strictly decreases the potential
`|queue| + sum of (1 + degree) over unsettled cells of V`. -/
theorem dinv_step {adjF : Cell → List (Q2 × Cell)} {V : Finset Cell} {G : Cell → Prop}
    {start : Cell} {t : Tracking} {q : List (Q2 × Cell)} {S : Finset Cell}
    {c : Q2} {a : Cell} {rest : List (Q2 × Cell)}
    (hclosed : ∀ a ∈ V, ∀ p ∈ adjF a, p.2 ∈ V)
    (hpos : ∀ a ∈ V, ∀ p ∈ adjF a, 0 < p.1)
    (htgt : ∀ a ∈ V, ∀ p ∈ adjF a, G p.2)
    (hstart : start ∈ V)
    (inv : DInv adjF V G start t q S)
    (hpop : popMin pairLeb q = some ((c, a), rest)) :
    ∃ S', S ⊆ S' ∧ (∀ x ∈ S', x ∈ S ∨ x = a) ∧
      DInv adjF V G start (relaxList (adjF a) a t rest).1 (relaxList (adjF a) a t rest).2 S' ∧
      (relaxList (adjF a) a t rest).2.length
          + ((V \ S').sum fun x => 1 + (adjF x).length) + 1
        ≤ q.length + ((V \ S).sum fun x => 1 + (adjF x).length) := by
  obtain ⟨ca, πa, hta, hcac, hopt⟩ := dinv_pop_opt inv hclosed hpos hstart hpop
  have haV : a ∈ V := inv.dom a (by rw [hta]; simp)
  have hca0 : 0 ≤ ca := inv.nn a ca πa hta
  have hnnadj : ∀ p ∈ adjF a, 0 ≤ p.1 := fun p hp => le_of_lt (hpos a haV p hp)
  have hmemq : ∀ en ∈ rest, en ∈ q :=
    fun en h => (popMin_perm hpop).mem_iff.mpr (List.mem_cons_of_mem _ h)
  have hsplit : ∀ en ∈ q, en = (c, a) ∨ en ∈ rest :=
    fun en h => List.mem_cons.mp ((popMin_perm hpop).mem_iff.mp h)
  have hqlen : q.length = rest.length + 1 := by
    have h := (popMin_perm hpop).length_eq
    simpa using h
  by_cases haS : a ∈ S
  · -- settled pop: the relaxation pass is a no-op
    obtain ⟨ca', πa', hta', hopt', hrel'⟩ := inv.settled a haS
    rw [hta] at hta'
    injection hta' with hta'
    injection hta' with h1 h2
    have hrel2 : ∀ e b, (e, b) ∈ adjF a → ∃ cb πb, t b = some (cb, πb) ∧ cb ≤ e + ca := by
      intro e b he
      obtain ⟨cb, πb, htb, hle⟩ := hrel' e b he
      refine ⟨cb, πb, htb, ?_⟩
      rw [h1]
      exact hle
    have hnoop := relax_noop (adjF a) t rest hta hrel2
    rw [hnoop]
    refine ⟨S, Finset.Subset.refl S, fun x hx => Or.inl hx, ?_, ?_⟩
    · constructor
      · exact inv.dom
      · exact inv.tgt
      · exact inv.nn
      · exact inv.tstart
      · exact inv.prednone
      · exact inv.chain
      · intro en hen
        exact inv.qtrack en (hmemq en hen)
      · exact inv.settled
      · intro x cx πx hxS htx
        obtain ⟨c', hc'q, hc'⟩ := inv.unsett x cx πx hxS htx
        rcases hsplit _ hc'q with heq | hmem
        · exfalso
          injection heq with he1 he2
          rw [he2] at hxS
          exact hxS haS
        · exact ⟨c', hmem, hc'⟩
      · rcases inv.startq with h | h
        · exact Or.inl h
        · by_cases hsa : start = a
          · left
            rw [hsa]
            exact haS
          · rcases hsplit _ h with heq | hmem
            · injection heq with he1 he2
              exact absurd he2 hsa
            · exact Or.inr hmem
      · exact inv.sound
      · exact inv.sdom
    · rw [hqlen]
      linarith
  · -- unsettled pop: relax all edges and settle the cell
    have R := relax_spec (adjF a) t rest hnnadj hta
    have hkeep : ∀ s ∈ S, (relaxList (adjF a) a t rest).1 s = t s := by
      intro s hs
      rcases R.alt s with h | ⟨e, hmem, hx, hdec⟩
      · exact h
      · exfalso
        obtain ⟨cs, πs, hts, hopts, hrels⟩ := inv.settled s hs
        have hdec' := hdec cs πs hts
        obtain ⟨lw, ww, hww, hwle⟩ := inv.sound a ca πa hta
        have hsnoc := walk_snoc hww hmem
        have h2 := hopts _ _ hsnoc
        rw [Q2.le_iff] at hwle h2
        rw [Q2.lt_iff] at hdec'
        simp only [Q2.val_add] at *
        linarith
    refine ⟨insert a S, Finset.subset_insert a S, ?_, ?_, ?_⟩
    · intro x hx
      rcases Finset.mem_insert.mp hx with h | h
      · exact Or.inr h
      · exact Or.inl h
    · constructor
      · intro x hx
        rcases R.domg x hx with h | ⟨e, hmem⟩
        · exact inv.dom x h
        · exact hclosed a haV (e, x) hmem
      · intro x hx
        rcases R.domg x hx with h | ⟨e, hmem⟩
        · exact inv.tgt x h
        · exact Or.inr (htgt a haV (e, x) hmem)
      · intro x cx πx hx
        rcases R.alt x with h | ⟨e, hmem, hx', hdec⟩
        · rw [h] at hx
          exact inv.nn x cx πx hx
        · rw [hx'] at hx
          injection hx with hx
          injection hx with h1 h2
          rw [← h1]
          exact Q2.add_nonneg (hnnadj (e, x) hmem) hca0
      · rcases R.alt start with h | ⟨e, hmem, hx', hdec⟩
        · rw [h]
          exact inv.tstart
        · exfalso
          have h2 := hdec 0 none inv.tstart
          have h3 := Q2.add_nonneg (hnnadj (e, start) hmem) hca0
          rw [Q2.lt_iff] at h2
          rw [Q2.le_iff] at h3
          simp only [Q2.val_zero] at *
          linarith
      · intro x cx hx
        rcases R.alt x with h | ⟨e, hmem, hx', hdec⟩
        · rw [h] at hx
          exact inv.prednone x cx hx
        · rw [hx'] at hx
          injection hx with hx
          injection hx with h1 h2
          cases h2
      · intro x cx p hx
        rcases R.alt x with h | ⟨e, hmem, hx', hdec⟩
        · rw [h] at hx
          obtain ⟨e', cp, πp, he', htp, hle⟩ := inv.chain x cx p hx
          obtain ⟨cp', πp', htp', hlep⟩ := R.mono p cp πp htp
          refine ⟨e', cp', πp', he', htp', ?_⟩
          rw [Q2.le_iff] at hle hlep ⊢
          simp only [Q2.val_add] at *
          linarith
        · rw [hx'] at hx
          injection hx with hx
          injection hx with h1 h2
          injection h2 with h2
          refine ⟨e, ca, πa, ?_, ?_, ?_⟩
          · rw [← h2]
            exact hmem
          · rw [← h2, R.self]
            exact hta
          · exact le_of_eq h1
      · intro en hen
        rcases R.qnew en hen with h | h
        · obtain ⟨cc, πc, htc, hle⟩ := inv.qtrack en (hmemq en h)
          obtain ⟨cc', πc', htc', hlec⟩ := R.mono en.2 cc πc htc
          exact ⟨cc', πc', htc', hlec.trans hle⟩
        · exact h
      · intro x hx
        rcases Finset.mem_insert.mp hx with h | h
        · refine ⟨ca, πa, ?_, ?_, ?_⟩
          · rw [h, R.self]
            exact hta
          · intro l w hw
            rw [h] at hw
            exact hopt l w hw
          · intro e b he
            rw [h] at he
            exact R.relaxed e b he
        · obtain ⟨cs, πs, hts, hopts, hrels⟩ := inv.settled x h
          refine ⟨cs, πs, ?_, hopts, ?_⟩
          · rw [hkeep x h]
            exact hts
          · intro e b he
            obtain ⟨cb, πb, htb, hle⟩ := hrels e b he
            obtain ⟨cb', πb', htb', hlec⟩ := R.mono b cb πb htb
            exact ⟨cb', πb', htb', hlec.trans hle⟩
      · intro x cx πx hxS htx
        have hxa : x ≠ a := fun hh => hxS (by rw [hh]; exact Finset.mem_insert_self a S)
        have hxS' : x ∉ S := fun hh => hxS (Finset.mem_insert_of_mem hh)
        by_cases hch : (relaxList (adjF a) a t rest).1 x = t x
        · rw [hch] at htx
          obtain ⟨c', hc'q, hc'⟩ := inv.unsett x cx πx hxS' htx
          rcases hsplit _ hc'q with heq | hmem
          · exfalso
            injection heq with he1 he2
            exact hxa he2
          · exact ⟨c', R.qsub _ hmem, hc'⟩
        · obtain ⟨cx', πx', htx', hq'⟩ := R.updEntry x hch
          have heq := htx'.symm.trans htx
          injection heq with heq
          injection heq with h1 h2
          refine ⟨cx, ?_, le_refl cx⟩
          rw [← h1]
          exact hq'
      · by_cases hsa : start = a
        · left
          rw [hsa]
          exact Finset.mem_insert_self a S
        · rcases inv.startq with h | h
          · exact Or.inl (Finset.mem_insert_of_mem h)
          · rcases hsplit _ h with heq | hmem
            · injection heq with he1 he2
              exact absurd he2 hsa
            · exact Or.inr (R.qsub _ hmem)
      · intro x cx πx hx
        rcases R.alt x with h | ⟨e, hmem, hx', hdec⟩
        · rw [h] at hx
          exact inv.sound x cx πx hx
        · rw [hx'] at hx
          injection hx with hx
          injection hx with h1 h2
          obtain ⟨lw, ww, hww, hwle⟩ := inv.sound a ca πa hta
          refine ⟨lw ++ [x], ww + e, walk_snoc hww hmem, ?_⟩
          rw [← h1]
          rw [Q2.le_iff] at hwle ⊢
          simp only [Q2.val_add] at *
          linarith
      · intro x hx
        rcases Finset.mem_insert.mp hx with h | h
        · rw [h, R.self, hta]
          simp
        · rw [hkeep x h]
          exact inv.sdom x h
    · have hsum : ((V \ S).erase a).sum (fun x => 1 + (adjF x).length) + (1 + (adjF a).length)
          = (V \ S).sum (fun x => 1 + (adjF x).length) :=
        Finset.sum_erase_add _ _ (Finset.mem_sdiff.mpr ⟨haV, haS⟩)
      have hVS : V \ insert a S = (V \ S).erase a := Finset.sdiff_insert V S a
      rw [hVS, hqlen]
      have hql := R.qlen
      linarith

/-- If reconstruction succeeds, the produced list runs destination first,
ends at the start, and reversed is a walk costing at most the tracked cost. -/
theorem reconstruct_sound {adjF : Cell → List (Q2 × Cell)} {V : Finset Cell} {G : Cell → Prop}
    {start : Cell} {t : Tracking} {q : List (Q2 × Cell)} {S : Finset Cell}
    (inv : DInv adjF V G start t q S) :
    ∀ (fuel : ℕ) (x : Cell) (cx : Q2) (πx : Option Cell), t x = some (cx, πx) →
      ∀ l, reconstruct fuel t x = some l →
      l.head? = some x ∧ l.getLast? = some start ∧
      ∃ w, WalkL adjF start l.reverse x w ∧ w ≤ cx := by
  intro fuel
  induction fuel with
  | zero =>
    intro x cx πx ht l hrec
    unfold reconstruct at hrec
    rw [ht] at hrec
    cases πx with
    | none =>
      dsimp only at hrec
      injection hrec with hrec
      subst hrec
      have hxs : x = start := inv.prednone x cx ht
      refine ⟨rfl, ?_, 0, ?_, inv.nn _ _ _ ht⟩
      · rw [hxs]
        rfl
      · rw [hxs]
        simp only [List.reverse_singleton]
        exact WalkL.nil start
    | some p =>
      dsimp only at hrec
      exact Option.noConfusion hrec
  | succ fuel ih =>
    intro x cx πx ht l hrec
    unfold reconstruct at hrec
    rw [ht] at hrec
    cases πx with
    | none =>
      dsimp only at hrec
      injection hrec with hrec
      subst hrec
      have hxs : x = start := inv.prednone x cx ht
      refine ⟨rfl, ?_, 0, ?_, inv.nn _ _ _ ht⟩
      · rw [hxs]
        rfl
      · rw [hxs]
        simp only [List.reverse_singleton]
        exact WalkL.nil start
    | some p =>
      dsimp only at hrec
      rcases hmap : reconstruct fuel t p with _ | l' <;> rw [hmap] at hrec <;> simp at hrec
      subst hrec
      obtain ⟨e, cp, πp, he, htp, hle⟩ := inv.chain x cx p ht
      obtain ⟨hhead, hlast, w', hwalk, hw'⟩ := ih p cp πp htp l' hmap
      refine ⟨rfl, ?_, ?_⟩
      · cases l' with
        | nil => exact Option.noConfusion hhead
        | cons h0 tl =>
          rw [List.getLast?_cons_cons]
          exact hlast
      · refine ⟨w' + e, ?_, ?_⟩
        · rw [List.reverse_cons]
          exact walk_snoc hwalk he
        · rw [Q2.le_iff] at hw' hle ⊢
          simp only [Q2.val_add] at *
          linarith

/-- Tracked cells strictly cheaper than a bound, used as the measure for
reconstruction: predecessor chains strictly decrease in cost. -/
def trackLtb (t : Tracking) (y : Cell) (cx : Q2) : Bool :=
  match t y with
  | some pr => decide (pr.1 < cx)
  | none => false

/-- Reconstruction succeeds given fuel at least the number of tracked cells
cheaper than the target's cost. -/
theorem reconstruct_total {adjF : Cell → List (Q2 × Cell)} {V : Finset Cell} {G : Cell → Prop}
    {start : Cell} {t : Tracking} {q : List (Q2 × Cell)} {S : Finset Cell}
    (inv : DInv adjF V G start t q S)
    (hpos : ∀ a ∈ V, ∀ p ∈ adjF a, 0 < p.1) :
    ∀ (fuel : ℕ) (x : Cell) (cx : Q2) (πx : Option Cell), t x = some (cx, πx) →
      (V.filter (fun y => trackLtb t y cx = true)).card ≤ fuel →
      ∃ l, reconstruct fuel t x = some l := by
  intro fuel
  induction fuel with
  | zero =>
    intro x cx πx ht hcard
    cases πx with
    | none =>
      refine ⟨[x], ?_⟩
      unfold reconstruct
      rw [ht]
    | some p =>
      exfalso
      obtain ⟨e, cp, πp, he, htp, hle⟩ := inv.chain x cx p ht
      have hpV : p ∈ V := inv.dom p (by rw [htp]; simp)
      have hepos : 0 < e := hpos p hpV (e, x) he
      have hcp : cp < cx := by
        rw [Q2.lt_iff]
        rw [Q2.le_iff] at hle
        rw [Q2.lt_iff] at hepos
        simp only [Q2.val_add, Q2.val_zero] at *
        linarith
      have hpmem : p ∈ V.filter (fun y => trackLtb t y cx = true) := by
        rw [Finset.mem_filter]
        refine ⟨hpV, ?_⟩
        unfold trackLtb
        rw [htp]
        exact decide_eq_true hcp
      have hpos' := Finset.card_pos.mpr ⟨p, hpmem⟩
      omega
  | succ fuel ih =>
    intro x cx πx ht hcard
    cases πx with
    | none =>
      refine ⟨[x], ?_⟩
      unfold reconstruct
      rw [ht]
    | some p =>
      obtain ⟨e, cp, πp, he, htp, hle⟩ := inv.chain x cx p ht
      have hpV : p ∈ V := inv.dom p (by rw [htp]; simp)
      have hepos : 0 < e := hpos p hpV (e, x) he
      have hcp : cp < cx := by
        rw [Q2.lt_iff]
        rw [Q2.le_iff] at hle
        rw [Q2.lt_iff] at hepos
        simp only [Q2.val_add, Q2.val_zero] at *
        linarith
      have hpmem : p ∈ V.filter (fun y => trackLtb t y cx = true) := by
        rw [Finset.mem_filter]
        refine ⟨hpV, ?_⟩
        unfold trackLtb
        rw [htp]
        exact decide_eq_true hcp
      have hsub : V.filter (fun y => trackLtb t y cp = true)
          ⊆ (V.filter (fun y => trackLtb t y cx = true)).erase p := by
        intro y hy
        rw [Finset.mem_filter] at hy
        obtain ⟨hyV, hyb⟩ := hy
        rw [Finset.mem_erase]
        constructor
        · intro hyp
          rw [hyp] at hyb
          unfold trackLtb at hyb
          rw [htp] at hyb
          rw [decide_eq_true_iff] at hyb
          exact absurd hyb (lt_irrefl cp)
        · rw [Finset.mem_filter]
          refine ⟨hyV, ?_⟩
          rcases hty : t y with _ | pr <;> unfold trackLtb at hyb <;> rw [hty] at hyb
          · exact (Bool.false_ne_true hyb).elim
          · rw [decide_eq_true_iff] at hyb
            unfold trackLtb
            rw [hty]
            exact decide_eq_true (hyb.trans hcp)
      have hcard2 : (V.filter (fun y => trackLtb t y cp = true)).card ≤ fuel := by
        have h1 := Finset.card_le_card hsub
        have h2 := Finset.card_erase_of_mem hpmem
        have h3 := Finset.card_pos.mpr ⟨p, hpmem⟩
        omega
      obtain ⟨l', hl'⟩ := ih p cp πp htp hcard2
      refine ⟨x :: l', ?_⟩
      unfold reconstruct
      rw [ht]
      dsimp only
      rw [hl']
      rfl

/-- Partial correctness of the single-destination loop: a returned path
runs destination first, ends at the start, and its reverse is a
minimum-cost walk; a returned `None` means the destination is unreachable. -/
theorem dloop_some {adjF : Cell → List (Q2 × Cell)} {V : Finset Cell} {G : Cell → Prop}
    {start : Cell}
    (hclosed : ∀ a ∈ V, ∀ p ∈ adjF a, p.2 ∈ V)
    (hpos : ∀ a ∈ V, ∀ p ∈ adjF a, 0 < p.1)
    (htgt : ∀ a ∈ V, ∀ p ∈ adjF a, G p.2)
    (hstart : start ∈ V) (dest : Cell) :
    ∀ (fuel : ℕ) (t : Tracking) (q : List (Q2 × Cell)) (S : Finset Cell),
      DInv adjF V G start t q S → dest ∉ S →
      ∀ r, dijkstraLoop adjF dest fuel t q = some r →
        (∀ p, r = some p →
          p.head? = some dest ∧ p.getLast? = some start ∧
          ∃ w, WalkL adjF start p.reverse dest w ∧
            ∀ l' w', WalkL adjF start l' dest w' → w ≤ w') ∧
        (r = none → ¬ ∃ l' w', WalkL adjF start l' dest w') := by
  intro fuel
  induction fuel with
  | zero =>
    intro t q S inv hdS r hr
    simp [dijkstraLoop] at hr
  | succ fuel ih =>
    intro t q S inv hdS r hr
    unfold dijkstraLoop at hr
    rcases hpop : popMin pairLeb q with _ | ⟨⟨c, a⟩, rest⟩ <;> rw [hpop] at hr <;> dsimp only at hr
    · injection hr with hr
      subst hr
      constructor
      · intro p hp
        exact Option.noConfusion hp
      · intro _
        rintro ⟨l', w', hw⟩
        have hq : q = [] := popMin_none_iff.mp hpop
        subst hq
        rcases dinv_key inv hclosed hpos hstart hw with ⟨hzS, _⟩ | ⟨b, cb, hmem, _⟩
        · exact hdS hzS
        · simp at hmem
    · by_cases had : a = dest
      · rw [if_pos had] at hr
        subst had
        rcases hrec : reconstruct fuel t a with _ | l <;> rw [hrec] at hr <;> dsimp only at hr
        · exact Option.noConfusion hr
        · injection hr with hr
          subst hr
          constructor
          · intro p hp
            injection hp with hp
            subst hp
            obtain ⟨ca, πa, hta, hcac, hopt⟩ := dinv_pop_opt inv hclosed hpos hstart hpop
            obtain ⟨hhead, hlast, w, hwalk, hwle⟩ := reconstruct_sound inv fuel a ca πa hta _ hrec
            exact ⟨hhead, hlast, w, hwalk, fun l' w' hw' => hwle.trans (hopt l' w' hw')⟩
          · intro hcon
            exact Option.noConfusion hcon
      · rw [if_neg had] at hr
        obtain ⟨S', hsub, hbound, inv', hphi⟩ := dinv_step hclosed hpos htgt hstart inv hpop
        have hdS' : dest ∉ S' := by
          intro hd
          rcases hbound dest hd with h | h
          · exact hdS h
          · exact had h.symm
        exact ih _ _ _ inv' hdS' r hr

/-- Termination: with fuel exceeding the initial potential plus `|V|`,
the single-destination loop completes. -/
theorem dloop_total {adjF : Cell → List (Q2 × Cell)} {V : Finset Cell} {G : Cell → Prop}
    {start : Cell}
    (hclosed : ∀ a ∈ V, ∀ p ∈ adjF a, p.2 ∈ V)
    (hpos : ∀ a ∈ V, ∀ p ∈ adjF a, 0 < p.1)
    (htgt : ∀ a ∈ V, ∀ p ∈ adjF a, G p.2)
    (hstart : start ∈ V) (dest : Cell) :
    ∀ (n fuel : ℕ) (t : Tracking) (q : List (Q2 × Cell)) (S : Finset Cell),
      DInv adjF V G start t q S →
      q.length + ((V \ S).sum fun x => 1 + (adjF x).length) ≤ n →
      n + V.card < fuel →
      dijkstraLoop adjF dest fuel t q ≠ none := by
  intro n
  induction n with
  | zero =>
    intro fuel t q S inv hphi hfuel
    have hq : q.length = 0 := by omega
    have hqnil : q = [] := List.length_eq_zero.mp hq
    subst hqnil
    cases fuel with
    | zero => omega
    | succ fuel => simp [dijkstraLoop, popMin]
  | succ n ihn =>
    intro fuel t q S inv hphi hfuel
    cases fuel with
    | zero => omega
    | succ fuel =>
      unfold dijkstraLoop
      rcases hpop : popMin pairLeb q with _ | ⟨⟨c, a⟩, rest⟩
      · simp
      · dsimp only
        by_cases had : a = dest
        · rw [if_pos had]
          obtain ⟨ca, πa, hta, hcac, hopt⟩ := dinv_pop_opt inv hclosed hpos hstart hpop
          have hcard : (V.filter (fun y => trackLtb t y ca = true)).card ≤ fuel := by
            have h1 := Finset.card_filter_le V (fun y => trackLtb t y ca = true)
            omega
          obtain ⟨l, hl⟩ := reconstruct_total inv hpos fuel a ca πa hta hcard
          rw [hl]
          simp
        · rw [if_neg had]
          obtain ⟨S', hsub, hbound, inv', hphi'⟩ := dinv_step hclosed hpos htgt hstart inv hpop
          apply ihn fuel _ _ _ inv'
          · linarith
          · omega

/-- Cost projection relating the two tracking tables: the all-destinations
loop runs the same algorithm with predecessors erased. -/
def costOf (t : Tracking) : CostMap := fun c => (t c).map Prod.fst

theorem costOf_updT (t : Tracking) (k : Cell) (cv : Q2) (pv : Option Cell) :
    costOf (updT t k (cv, pv)) = updA (costOf t) k cv := by
  funext c
  unfold costOf updT updA
  by_cases h : c = k <;> simp [h]

theorem relaxAll_sim (curr : Cell) :
    ∀ (adjL : List (Q2 × Cell)) (t : Tracking) (q : List (Q2 × Cell)),
      relaxListAll adjL curr (costOf t) q
        = (costOf (relaxList adjL curr t q).1, (relaxList adjL curr t q).2) := by
  intro adjL
  induction adjL with
  | nil => intro t q; rfl
  | cons hd rest ih =>
    obtain ⟨cost, node⟩ := hd
    intro t q
    have hbase : (match costOf t curr with | some cc => cc | none => 0)
        = (match t curr with | some pr => pr.1 | none => 0) := by
      unfold costOf
      cases t curr <;> rfl
    rcases hnode : t node with _ | pn
    · have hn : costOf t node = none := by
        unfold costOf
        rw [hnode]
        rfl
      have e1 : relaxListAll ((cost, node) :: rest) curr (costOf t) q
          = relaxListAll rest curr
              (updA (costOf t) node (cost + (match t curr with | some pr => pr.1 | none => 0)))
              ((cost + (match t curr with | some pr => pr.1 | none => 0), node) :: q) := by
        conv_lhs => rw [relaxListAll]
        rw [hn, hbase]
      have e2 : relaxList ((cost, node) :: rest) curr t q
          = relaxList rest curr
              (updT t node (cost + (match t curr with | some pr => pr.1 | none => 0), some curr))
              ((cost + (match t curr with | some pr => pr.1 | none => 0), node) :: q) := by
        conv_lhs => rw [relaxList]
        rw [hnode]
      rw [e1, e2, ← costOf_updT]
      exact ih _ _
    · have hn : costOf t node = some pn.1 := by
        unfold costOf
        rw [hnode]
        rfl
      by_cases hlt : cost + (match t curr with | some pr => pr.1 | none => 0) < pn.1
      · have e1 : relaxListAll ((cost, node) :: rest) curr (costOf t) q
            = relaxListAll rest curr
                (updA (costOf t) node (cost + (match t curr with | some pr => pr.1 | none => 0)))
                ((cost + (match t curr with | some pr => pr.1 | none => 0), node) :: q) := by
          conv_lhs => rw [relaxListAll]
          rw [hn, hbase]
          dsimp only
          rw [if_pos hlt]
        have e2 : relaxList ((cost, node) :: rest) curr t q
            = relaxList rest curr
                (updT t node (cost + (match t curr with | some pr => pr.1 | none => 0), some curr))
                ((cost + (match t curr with | some pr => pr.1 | none => 0), node) :: q) := by
          conv_lhs => rw [relaxList]
          rw [hnode]
          dsimp only
          rw [if_pos hlt]
        rw [e1, e2, ← costOf_updT]
        exact ih _ _
      · have e1 : relaxListAll ((cost, node) :: rest) curr (costOf t) q
            = relaxListAll rest curr (costOf t) q := by
          conv_lhs => rw [relaxListAll]
          rw [hn, hbase]
          dsimp only
          rw [if_neg hlt]
        have e2 : relaxList ((cost, node) :: rest) curr t q
            = relaxList rest curr t q := by
          conv_lhs => rw [relaxList]
          rw [hnode]
          dsimp only
          rw [if_neg hlt]
        rw [e1, e2]
        exact ih _ _

/-- Partial correctness of the all-destinations loop: every entry of the
returned table is the exact minimal walk cost, absent cells are
unreachable, non-start keys satisfy the target predicate, and the start
maps to zero. -/
theorem allLoop_some {adjF : Cell → List (Q2 × Cell)} {V : Finset Cell} {G : Cell → Prop}
    {start : Cell}
    (hclosed : ∀ a ∈ V, ∀ p ∈ adjF a, p.2 ∈ V)
    (hpos : ∀ a ∈ V, ∀ p ∈ adjF a, 0 < p.1)
    (htgt : ∀ a ∈ V, ∀ p ∈ adjF a, G p.2)
    (hstart : start ∈ V) :
    ∀ (fuel : ℕ) (t : Tracking) (q : List (Q2 × Cell)) (S : Finset Cell),
      DInv adjF V G start t q S →
      ∀ tf, dijkstraAllLoop adjF fuel (costOf t) q = some tf →
        (∀ x cost, tf x = some cost →
          (∃ l, WalkL adjF start l x cost) ∧
          (∀ l' w', WalkL adjF start l' x w' → cost ≤ w') ∧
          (x = start ∨ G x)) ∧
        (∀ x, tf x = none → ¬ ∃ l w, WalkL adjF start l x w) ∧
        tf start = some 0 := by
  intro fuel
  induction fuel with
  | zero =>
    intro t q S inv tf htf
    simp [dijkstraAllLoop] at htf
  | succ fuel ih =>
    intro t q S inv tf htf
    unfold dijkstraAllLoop at htf
    rcases hpop : popMin pairLeb q with _ | ⟨⟨c, a⟩, rest⟩ <;> rw [hpop] at htf <;> dsimp only at htf
    · injection htf with htf
      subst htf
      have hq : q = [] := popMin_none_iff.mp hpop
      subst hq
      have hsettled : ∀ x cx πx, t x = some (cx, πx) → x ∈ S := by
        intro x cx πx htx
        by_contra hxS
        obtain ⟨c', hc', _⟩ := inv.unsett x cx πx hxS htx
        simp at hc'
      refine ⟨?_, ?_, ?_⟩
      · intro x cost hx
        unfold costOf at hx
        rcases htx : t x with _ | pr <;> rw [htx] at hx <;> simp at hx
        obtain ⟨cx, πx⟩ := pr
        dsimp only at hx
        subst hx
        have hxS := hsettled x cx πx htx
        obtain ⟨cs, πs, hts, hopts, _⟩ := inv.settled x hxS
        rw [htx] at hts
        injection hts with hts
        injection hts with h1 h2
        obtain ⟨lw, ww, hww, hwle⟩ := inv.sound x cx πx htx
        have hopt2 : ∀ l' w', WalkL adjF start l' x w' → cx ≤ w' := by
          intro l' w' hw'
          rw [h1]
          exact hopts l' w' hw'
        have hwge := hopt2 lw ww hww
        have heq : ww = cx := le_antisymm hwle hwge
        refine ⟨⟨lw, ?_⟩, hopt2, inv.tgt x (by rw [htx]; simp)⟩
        rw [← heq]
        exact hww
      · intro x hx
        rintro ⟨l, w, hw⟩
        rcases dinv_key inv hclosed hpos hstart hw with ⟨hzS, cz, πz, htz, _⟩ | ⟨b, cb, hmem, _⟩
        · unfold costOf at hx
          rw [htz] at hx
          simp at hx
        · simp at hmem
      · unfold costOf
        rw [inv.tstart]
        rfl
    · rw [relaxAll_sim] at htf
      obtain ⟨S', hsub, hbound, inv', hphi⟩ := dinv_step hclosed hpos htgt hstart inv hpop
      exact ih _ _ _ inv' tf htf

/-- Termination of the all-destinations loop. -/
theorem allLoop_total {adjF : Cell → List (Q2 × Cell)} {V : Finset Cell} {G : Cell → Prop}
    {start : Cell}
    (hclosed : ∀ a ∈ V, ∀ p ∈ adjF a, p.2 ∈ V)
    (hpos : ∀ a ∈ V, ∀ p ∈ adjF a, 0 < p.1)
    (htgt : ∀ a ∈ V, ∀ p ∈ adjF a, G p.2)
    (hstart : start ∈ V) :
    ∀ (n fuel : ℕ) (t : Tracking) (q : List (Q2 × Cell)) (S : Finset Cell),
      DInv adjF V G start t q S →
      q.length + ((V \ S).sum fun x => 1 + (adjF x).length) ≤ n →
      n < fuel →
      dijkstraAllLoop adjF fuel (costOf t) q ≠ none := by
  intro n
  induction n with
  | zero =>
    intro fuel t q S inv hphi hfuel
    have hq : q.length = 0 := by omega
    have hqnil : q = [] := List.length_eq_zero.mp hq
    subst hqnil
    cases fuel with
    | zero => omega
    | succ fuel => simp [dijkstraAllLoop, popMin]
  | succ n ihn =>
    intro fuel t q S inv hphi hfuel
    cases fuel with
    | zero => omega
    | succ fuel =>
      unfold dijkstraAllLoop
      rcases hpop : popMin pairLeb q with _ | ⟨⟨c, a⟩, rest⟩
      · simp
      · dsimp only
        rw [relaxAll_sim]
        obtain ⟨S', hsub, hbound, inv', hphi'⟩ := dinv_step hclosed hpos htgt hstart inv hpop
        apply ihn fuel _ _ _ inv'
        · linarith
        · omega

/-! ### Properties of the grid adjacency model -/

theorem lookupQ_mem : ∀ (l : List (Cell × ℚ)) (c : Cell) (v : ℚ),
    lookupQ l c = some v → (c, v) ∈ l := by
  intro l
  induction l with
  | nil =>
    intro c v h
    exact Option.noConfusion h
  | cons hd rest ih =>
    obtain ⟨k, w⟩ := hd
    intro c v h
    unfold lookupQ at h
    by_cases hc : c = k
    · rw [if_pos hc] at h
      injection h with h
      rw [hc, h]
      exact List.mem_cons_self _ _
    · rw [if_neg hc] at h
      exact List.mem_cons_of_mem _ (ih c v h)

theorem weight_mem {g : Grid} {c : Cell} {w : ℚ} (h : Grid.weight g c = some w) :
    (c, w) ∈ g.spaces ∨ (c, w) ∈ g.waypoints := by
  unfold Grid.weight at h
  rcases hs : lookupQ g.spaces c with _ | v <;> rw [hs] at h
  · exact Or.inr (lookupQ_mem _ _ _ h)
  · dsimp only at h
    injection h with h
    rw [← h]
    exact Or.inl (lookupQ_mem _ _ _ hs)

/-- Every entry produced by the neighbor scan comes from a non-wall
candidate point with a found weight, and carries the source's cost formula. -/
theorem navLoop_chr (level : Grid) : ∀ (l : List (Cell × Q2)) (weig : Option ℚ)
    (r : List (Q2 × Cell)), navLoop level weig l = some r →
    ∀ p ∈ r, ∃ pt dist, (pt, dist) ∈ l ∧ p.2 = pt ∧ ¬ (pt ∈ level.walls) ∧
      ∃ pw w, Grid.weight level pt = some pw ∧ weig = some w ∧
      p.1 = dist * Q2.ofQ (pw + w) / 2 := by
  intro l
  induction l with
  | nil =>
    intro weig r hr p hp
    unfold navLoop at hr
    injection hr with hr
    subst hr
    simp at hp
  | cons hd rest ih =>
    obtain ⟨point, dist⟩ := hd
    intro weig r hr p hp
    unfold navLoop at hr
    by_cases hw : point ∈ level.walls
    · rw [if_pos hw] at hr
      obtain ⟨pt, dist', hmem, hrest⟩ := ih weig r hr p hp
      exact ⟨pt, dist', List.mem_cons_of_mem _ hmem, hrest⟩
    · rw [if_neg hw] at hr
      rcases hpw : Grid.weight level point with _ | pw <;> rw [hpw] at hr <;>
        rcases hww : weig with _ | w <;> rw [hww] at hr <;> dsimp only at hr
      · exact Option.noConfusion hr
      · exact Option.noConfusion hr
      · exact Option.noConfusion hr
      · rcases hm : navLoop level (some w) rest with _ | r' <;> rw [hm] at hr <;> simp at hr
        subst hr
        rcases List.mem_cons.mp hp with heq | hmem
        · subst heq
          exact ⟨point, dist, List.mem_cons_self _ _, rfl, hw, pw, w, hpw, rfl, rfl⟩
        · obtain ⟨pt, dist', hmem', hrest⟩ := ih (some w) r' hm p hmem
          exact ⟨pt, dist', List.mem_cons_of_mem _ hmem', hrest⟩

/-- Converse membership: a processed non-wall candidate with found weights
contributes its edge to the result. -/
theorem navLoop_mem (level : Grid) : ∀ (l : List (Cell × Q2)) (weig : Option ℚ)
    (r : List (Q2 × Cell)), navLoop level weig l = some r →
    ∀ pt dist pw w, (pt, dist) ∈ l → ¬ (pt ∈ level.walls) →
      Grid.weight level pt = some pw → weig = some w →
      (dist * Q2.ofQ (pw + w) / 2, pt) ∈ r := by
  intro l
  induction l with
  | nil =>
    intro weig r hr pt dist pw w hmem
    simp at hmem
  | cons hd rest ih =>
    obtain ⟨point, dist0⟩ := hd
    intro weig r hr pt dist pw w hmem hwall hpw hww
    unfold navLoop at hr
    by_cases hw : point ∈ level.walls
    · rw [if_pos hw] at hr
      rcases List.mem_cons.mp hmem with heq | hmem'
      · injection heq with h1 h2
        rw [h1] at hwall
        exact absurd hw hwall
      · exact ih weig r hr pt dist pw w hmem' hwall hpw hww
    · rw [if_neg hw] at hr
      subst hww
      rcases hpw0 : Grid.weight level point with _ | pw0 <;> rw [hpw0] at hr <;> dsimp only at hr
      · exact Option.noConfusion hr
      · rcases hm : navLoop level (some w) rest with _ | r' <;> rw [hm] at hr <;> simp at hr
        subst hr
        rcases List.mem_cons.mp hmem with heq | hmem'
        · injection heq with h1 h2
          subst h1
          subst h2
          rw [hpw] at hpw0
          injection hpw0 with h3
          rw [h3]
          exact List.mem_cons_self _ _
        · exact List.mem_cons_of_mem _ (ih (some w) r' hm pt dist pw w hmem' hwall hpw rfl)

/-- The scan fails (the Python `TypeError`) as soon as a non-wall candidate
has a missing weight, or any non-wall candidate exists while the queried
cell's own weight is missing. -/
theorem navLoop_fail (level : Grid) : ∀ (l : List (Cell × Q2)) (weig : Option ℚ),
    (∃ pd ∈ l, ¬ (pd.1 ∈ level.walls) ∧
      (Grid.weight level pd.1 = none ∨ weig = none)) →
    navLoop level weig l = none := by
  intro l
  induction l with
  | nil =>
    rintro weig ⟨pd, hmem, _⟩
    simp at hmem
  | cons hd rest ih =>
    obtain ⟨point, dist⟩ := hd
    rintro weig ⟨pd, hmem, hwall, hbad⟩
    unfold navLoop
    by_cases hw : point ∈ level.walls
    · rw [if_pos hw]
      rcases List.mem_cons.mp hmem with heq | hmem'
      · subst heq
        exact absurd hw hwall
      · exact ih weig ⟨pd, hmem', hwall, hbad⟩
    · rw [if_neg hw]
      rcases List.mem_cons.mp hmem with heq | hmem'
      · subst heq
        rcases hbad with h | h
        · rw [h]
        · rw [h]
          rcases hpw2 : Grid.weight level point with _ | pw2 <;> rfl
      · rcases hpw : Grid.weight level point with _ | pw
        · rfl
        · rcases hww : weig with _ | w
          · rfl
          · dsimp only
            rw [ih (some w) ⟨pd, hmem', hwall, by rw [← hww]; exact hbad⟩]
            rfl

theorem navAdj_eq {g : Grid} {c : Cell} {l : List (Q2 × Cell)}
    (h : navigation_edges g c = some l) : navAdj g c = l := by
  unfold navAdj
  rw [h]
  rfl

theorem navigation_edges_wall {g : Grid} {c : Cell} (h : c ∈ g.walls) :
    navigation_edges g c = some [] := by
  unfold navigation_edges
  rw [if_pos h]

/-- Every adjacency entry targets a non-wall cell. -/
theorem navAdj_not_wall (g : Grid) (c : Cell) :
    ∀ p ∈ navAdj g c, ¬ (p.2 ∈ g.walls) := by
  intro p hp
  unfold navAdj at hp
  rcases hnav : navigation_edges g c with _ | l <;> rw [hnav] at hp
  · simp at hp
  · dsimp only [Option.getD] at hp
    unfold navigation_edges at hnav
    by_cases hw : c ∈ g.walls
    · rw [if_pos hw] at hnav
      injection hnav with hnav
      rw [← hnav] at hp
      simp at hp
    · rw [if_neg hw] at hnav
      obtain ⟨pt, dist, _, hpt, hwall, _⟩ := navLoop_chr g _ _ _ hnav p hp
      rw [hpt]
      exact hwall

theorem val_one : ((1 : Q2)).val = 1 := by
  have h : (1 : Q2) = ⟨1, 0⟩ := by with_unfolding_all decide
  rw [h]
  unfold Q2.val
  norm_num

/-- Every distance factor in the offsets table is `1` or `sqrt 2`. -/
theorem navOffsets_dist : ∀ pd ∈ navOffsets, pd.2 = 1 ∨ pd.2 = Q2.sqrt2 := by
  intro pd hpd
  simp only [navOffsets, List.mem_cons, List.not_mem_nil, or_false] at hpd
  rcases hpd with h | h | h | h | h | h | h | h <;> rw [h] <;>
    first
    | exact Or.inl rfl
    | exact Or.inr rfl

/-- Positivity of every produced edge cost, given positive weights. -/
theorem navAdj_cost_pos {g : Grid}
    (hws : ∀ p ∈ g.spaces, 0 < p.2) (hwp : ∀ p ∈ g.waypoints, 0 < p.2) :
    ∀ (c : Cell), ∀ p ∈ navAdj g c, 0 < p.1 := by
  intro c p hp
  unfold navAdj at hp
  rcases hnav : navigation_edges g c with _ | l <;> rw [hnav] at hp
  · simp at hp
  · dsimp only [Option.getD] at hp
    unfold navigation_edges at hnav
    by_cases hw : c ∈ g.walls
    · rw [if_pos hw] at hnav
      injection hnav with hnav
      rw [← hnav] at hp
      simp at hp
    · rw [if_neg hw] at hnav
      obtain ⟨pt, dist, hmempt, hpt, hwall, pw, w, hpw, hww, hcost⟩ :=
        navLoop_chr g _ _ _ hnav p hp
      have hpwpos : 0 < pw := by
        rcases weight_mem hpw with h | h
        · exact hws _ h
        · exact hwp _ h
      have hwpos : 0 < w := by
        have h2 : Grid.weight g c = some w := hww
        rcases weight_mem h2 with h | h
        · exact hws _ h
        · exact hwp _ h
      have hdist : dist = 1 ∨ dist = Q2.sqrt2 := by
        unfold adjPoints at hmempt
        rw [List.mem_map] at hmempt
        obtain ⟨pd, hpd, heq⟩ := hmempt
        injection heq with h4 h5
        have h3 : dist = pd.2 := h5.symm
        rcases navOffsets_dist pd hpd with h | h
        · exact Or.inl (h3.trans h)
        · exact Or.inr (h3.trans h)
      rw [hcost, Q2.lt_iff]
      rw [Q2.val_zero, Q2.val_div_two, Q2.val_mul, Q2.val_ofQ]
      have hsum : (0 : ℝ) < (pw : ℝ) + (w : ℝ) := by
        have h1 : (0 : ℝ) < (pw : ℝ) := by exact_mod_cast hpwpos
        have h2 : (0 : ℝ) < (w : ℝ) := by exact_mod_cast hwpos
        linarith
      have hcast : ((pw + w : ℚ) : ℝ) = (pw : ℝ) + (w : ℝ) := by push_cast; ring
      rcases hdist with h | h <;> rw [h]
      · rw [val_one, hcast]
        linarith
      · rw [Q2.val_sqrt2, hcast]
        have hs : (0 : ℝ) < Real.sqrt 2 := Real.sqrt_pos.mpr (by norm_num)
        have := mul_pos hs hsum
        linarith

/-! ### Well-formed grids and concrete instances -/

/-- Spec invariant: every traversal weight is positive. -/
def PosWeights (g : Grid) : Prop :=
  (∀ p ∈ g.spaces, 0 < p.2) ∧ (∀ p ∈ g.waypoints, 0 < p.2)

/-- A grid is well-formed relative to a finite cell universe `V`: weights
are positive, the adjacency scan succeeds on every cell of `V` (no missing
weights, so the Python code raises no exception), and adjacency targets
stay inside `V`. -/
def WellFormed (g : Grid) (V : Finset Cell) : Prop :=
  PosWeights g ∧
  ∀ a ∈ V, (navigation_edges g a).isSome = true ∧ ∀ p ∈ navAdj g a, p.2 ∈ V

instance (g : Grid) (V : Finset Cell) : Decidable (WellFormed g V) := by
  unfold WellFormed PosWeights
  infer_instance

theorem wf_closed {g : Grid} {V : Finset Cell} (h : WellFormed g V) :
    ∀ a ∈ V, ∀ p ∈ navAdj g a, p.2 ∈ V :=
  fun a ha => (h.2 a ha).2

theorem wf_pos {g : Grid} {V : Finset Cell} (h : WellFormed g V) :
    ∀ a ∈ V, ∀ p ∈ navAdj g a, 0 < p.1 :=
  fun a _ => navAdj_cost_pos h.1.1 h.1.2 a

/-- The ghost target predicate used to instantiate the loop invariant:
a cell is a target if it is not a wall. -/
def notWall (g : Grid) (c : Cell) : Prop := ¬ (c ∈ g.walls)

theorem wf_tgt (g : Grid) (V : Finset Cell) :
    ∀ a ∈ V, ∀ p ∈ navAdj g a, notWall g p.2 :=
  fun a _ => navAdj_not_wall g a

/-- Non-trivial walks end at an adjacency target. -/
theorem walk_ends {adjF : Cell → List (Q2 × Cell)} :
    ∀ {a : Cell} {l : List Cell} {z : Cell} {w : Q2}, WalkL adjF a l z w →
      z = a ∨ ∃ y e, (e, z) ∈ adjF y := by
  intro a l z w hw
  induction hw with
  | nil a => exact Or.inl rfl
  | @cons a b z e w l he hw ih =>
    rcases ih with h | h
    · exact Or.inr ⟨a, e, h ▸ he⟩
    · exact Or.inr h

/-- A wall other than the start is unreachable. -/
theorem wall_unreachable (g : Grid) {start dest : Cell}
    (hdw : dest ∈ g.walls) (hne : dest ≠ start) :
    ¬ ∃ l w, WalkL (navAdj g) start l dest w := by
  rintro ⟨l, w, hw⟩
  rcases walk_ends hw with h | ⟨y, e, hmem⟩
  · exact hne h
  · exact navAdj_not_wall g y (e, dest) hmem hdw

/-- The initial cost table of the all-destinations search is the cost
projection of the initial table of the path search. -/
theorem initCost (start : Cell) :
    updA (fun _ => none) start 0 = costOf (updT (fun _ => none) start (0, none)) := by
  funext c
  unfold updA updT costOf
  by_cases h : c = start <;> simp [h]

/-- One relaxation pass of the cost-only loop keeps the start at cost `0`
and all costs nonnegative, given nonnegative edge costs. -/
theorem relaxAll_keep {start curr : Cell} :
    ∀ (adjL : List (Q2 × Cell)) (t : CostMap) (q : List (Q2 × Cell)),
      (∀ p ∈ adjL, 0 ≤ p.1) → t start = some 0 → (∀ x cx, t x = some cx → 0 ≤ cx) →
      (relaxListAll adjL curr t q).1 start = some 0 ∧
      (∀ x cx, (relaxListAll adjL curr t q).1 x = some cx → 0 ≤ cx) := by
  intro adjL
  induction adjL with
  | nil =>
    intro t q hnn hstart hpos0
    exact ⟨hstart, hpos0⟩
  | cons hd rest ih =>
    obtain ⟨cost, node⟩ := hd
    intro t q hnn hstart hpos0
    have hcost : 0 ≤ cost := hnn (cost, node) (List.mem_cons_self _ _)
    have hbase : 0 ≤ (match t curr with | some cc => cc | none => 0) := by
      rcases hc : t curr with _ | cc
      · exact le_refl 0
      · exact hpos0 curr cc hc
    have hpc : 0 ≤ cost + (match t curr with | some cc => cc | none => 0) :=
      Q2.add_nonneg hcost hbase
    have hstep : relaxListAll ((cost, node) :: rest) curr t q =
        match t node with
        | none => relaxListAll rest curr
            (updA t node (cost + (match t curr with | some cc => cc | none => 0)))
            ((cost + (match t curr with | some cc => cc | none => 0), node) :: q)
        | some cn =>
          if cost + (match t curr with | some cc => cc | none => 0) < cn then
            relaxListAll rest curr
              (updA t node (cost + (match t curr with | some cc => cc | none => 0)))
              ((cost + (match t curr with | some cc => cc | none => 0), node) :: q)
          else relaxListAll rest curr t q := by
      conv_lhs => rw [relaxListAll]
    have hkeep : ∀ hn : t node = none ∨ (∃ cn, t node = some cn ∧
          cost + (match t curr with | some cc => cc | none => 0) < cn),
        (updA t node (cost + (match t curr with | some cc => cc | none => 0))) start = some 0 ∧
        (∀ x cx, (updA t node (cost + (match t curr with | some cc => cc | none => 0))) x
            = some cx → 0 ≤ cx) := by
      intro hn
      constructor
      · unfold updA
        by_cases hns : start = node
        · exfalso
          rcases hn with h | ⟨cn, hcn, hlt⟩
          · rw [← hns, hstart] at h
            exact Option.noConfusion h
          · rw [← hns, hstart] at hcn
            injection hcn with hcn
            rw [← hcn] at hlt
            rw [Q2.lt_iff] at hlt
            rw [Q2.le_iff] at hpc
            simp only [Q2.val_zero] at *
            linarith
        · rw [if_neg hns]
          exact hstart
      · intro x cx hx
        unfold updA at hx
        by_cases hxn : x = node
        · rw [if_pos hxn] at hx
          injection hx with hx
          rw [← hx]
          exact hpc
        · rw [if_neg hxn] at hx
          exact hpos0 x cx hx
    rw [hstep]
    rcases hnode : t node with _ | cn
    · obtain ⟨h1, h2⟩ := hkeep (Or.inl hnode)
      exact ih _ _ (fun p hp => hnn p (List.mem_cons_of_mem _ hp)) h1 h2
    · dsimp only
      by_cases hlt : cost + (match t curr with | some cc => cc | none => 0) < cn
      · rw [if_pos hlt]
        obtain ⟨h1, h2⟩ := hkeep (Or.inr ⟨cn, hnode, hlt⟩)
        exact ih _ _ (fun p hp => hnn p (List.mem_cons_of_mem _ hp)) h1 h2
      · rw [if_neg hlt]
        exact ih _ _ (fun p hp => hnn p (List.mem_cons_of_mem _ hp)) hstart hpos0

/-- The all-destinations loop keeps the start tracked at cost `0`. -/
theorem allLoop_start {adjF : Cell → List (Q2 × Cell)} {start : Cell}
    (hpos : ∀ c p, p ∈ adjF c → 0 < p.1) :
    ∀ (fuel : ℕ) (t : CostMap) (q : List (Q2 × Cell)) (tf : CostMap),
      t start = some 0 → (∀ x cx, t x = some cx → 0 ≤ cx) →
      dijkstraAllLoop adjF fuel t q = some tf → tf start = some 0 := by
  intro fuel
  induction fuel with
  | zero =>
    intro t q tf hstart hpos0 htf
    simp [dijkstraAllLoop] at htf
  | succ fuel ih =>
    intro t q tf hstart hpos0 htf
    unfold dijkstraAllLoop at htf
    rcases hpop : popMin pairLeb q with _ | ⟨⟨c, a⟩, rest⟩ <;> rw [hpop] at htf <;> dsimp only at htf
    · injection htf with htf
      rw [← htf]
      exact hstart
    · obtain ⟨h1, h2⟩ := relaxAll_keep (adjF a) t rest
        (fun p hp => le_of_lt (hpos a p hp)) hstart hpos0
      exact ih _ _ _ h1 h2 htf

/-- Boundary walls enclosing a 3 by 3 open area, as a loaded level has. -/
def wallRing : List Cell :=
  [(-1, -1), (0, -1), (1, -1), (2, -1), (3, -1), (3, 0), (3, 1), (3, 2),
   (3, 3), (2, 3), (1, 3), (0, 3), (-1, 3), (-1, 2), (-1, 1), (-1, 0)]

/-- The spec's concrete scenario: a 3 by 3 open grid of uniform weight 1. -/
def openGrid3 : Grid :=
  { walls := wallRing
    spaces := [((0, 0), 1), ((1, 0), 1), ((2, 0), 1), ((0, 1), 1), ((1, 1), 1),
               ((2, 1), 1), ((0, 2), 1), ((1, 2), 1), ((2, 2), 1)]
    waypoints := [] }

/-- The cell universe of `openGrid3`. -/
def grid3V : Finset Cell :=
  (wallRing ++ [(0, 0), (1, 0), (2, 0), (0, 1), (1, 1), (2, 1), (0, 2), (1, 2), (2, 2)]).toFinset

/-- A grid whose start cell is a wall. -/
def wallStartGrid : Grid :=
  { walls := [(0, 0)], spaces := [((5, 5), 1)], waypoints := [] }

/-- A malformed grid: the origin has weight 1 but all its neighbors are
neither walls nor weighted. -/
def looseGrid : Grid :=
  { walls := [], spaces := [((0, 0), 1)], waypoints := [] }

/-! ### The claims -/

/-- C1: for every well-formed grid (positive weights, closed finite cell
universe, every lookup succeeding) and every run of
`dijkstras_shortest_path` with `navigation_edges` that returns a path, the
returned path (reversed) is a walk from start to destination whose summed
edge cost is minimal: no walk from start to destination costs strictly
less.  Moreover whenever the destination is reachable, some fuel makes the
search return a path. -/
theorem C1_shortest_path_optimal (g : Grid) (V : Finset Cell) (start dest : Cell)
    (hwf : WellFormed g V) (hs : start ∈ V) :
    (∀ fuel p, dijkstras_shortest_path fuel start dest g navAdj = some (some p) →
      ∃ w, WalkL (navAdj g) start p.reverse dest w ∧
        ∀ l' w', WalkL (navAdj g) start l' dest w' → w ≤ w') ∧
    ((∃ l w, WalkL (navAdj g) start l dest w) →
      ∃ fuel p, dijkstras_shortest_path fuel start dest g navAdj = some (some p)) := by
  constructor
  · intro fuel p hrun
    unfold dijkstras_shortest_path at hrun
    have H := (dloop_some (wf_closed hwf) (wf_pos hwf) (wf_tgt g V) hs dest fuel
      _ _ ∅ (dinv_init hs) (Finset.not_mem_empty dest) (some p) hrun).1 p rfl
    obtain ⟨_, _, w, hwalk, hmin⟩ := H
    exact ⟨w, hwalk, hmin⟩
  · intro hreach
    have hterm := dloop_total (wf_closed hwf) (wf_pos hwf) (wf_tgt g V) hs dest
      (1 + (V.sum fun x => 1 + (navAdj g x).length))
      (1 + (V.sum fun x => 1 + (navAdj g x).length) + V.card + 1)
      (updT (fun _ => none) start (0, none)) [(0, start)] ∅ (dinv_init hs)
      (by rw [Finset.sdiff_empty]; simp) (by omega)
    rcases hr : dijkstraLoop (navAdj g) dest
        (1 + (V.sum fun x => 1 + (navAdj g x).length) + V.card + 1)
        (updT (fun _ => none) start (0, none)) [(0, start)] with _ | r
    · exact absurd hr hterm
    · have H := dloop_some (wf_closed hwf) (wf_pos hwf) (wf_tgt g V) hs dest _
        _ _ ∅ (dinv_init hs) (Finset.not_mem_empty dest) r hr
      cases r with
      | none => exact absurd hreach (H.2 rfl)
      | some p =>
        exact ⟨1 + (V.sum fun x => 1 + (navAdj g x).length) + V.card + 1, p, hr⟩

theorem C1_witness :
    ∃ w, WalkL (navAdj openGrid3) (0, 0)
        ([((2 : ℤ), (2 : ℤ)), (1, 1), (0, 0)] : List Cell).reverse (2, 2) w ∧
      ∀ l' w', WalkL (navAdj openGrid3) (0, 0) l' (2, 2) w' → w ≤ w' :=
  (C1_shortest_path_optimal openGrid3 grid3V (0, 0) (2, 2)
    (by with_unfolding_all decide) (by with_unfolding_all decide)).1 100 _
    (by with_unfolding_all decide)

/-- C2 counterexample: on the 3 by 3 uniform grid the search returns the
path `[(2,2),(1,1),(0,0)]`, ordered destination to start — not the claimed
`[(0,0),(1,1),(2,2)]`.  The reconstruction loop never reverses. -/
theorem C2_counterexample :
    dijkstras_shortest_path 100 (0, 0) (2, 2) openGrid3 navAdj
        = some (some [(2, 2), (1, 1), (0, 0)]) ∧
      ([((2 : ℤ), (2 : ℤ)), (1, 1), (0, 0)] : List Cell) ≠ [(0, 0), (1, 1), (2, 2)] := by
  constructor
  · with_unfolding_all decide
  · with_unfolding_all decide

/-- C2 amended: for every successful search the returned list is ordered
from destination to start — its first element is the destination and its
last element is the start (the reconstruction collects predecessor links
from destination back to start without reversing); in particular the 3 by 3
uniform scenario returns exactly `[(2,2),(1,1),(0,0)]`. -/
theorem C2_path_order :
    (∀ (g : Grid) (V : Finset Cell) (start dest : Cell), WellFormed g V → start ∈ V →
      ∀ fuel p, dijkstras_shortest_path fuel start dest g navAdj = some (some p) →
        p.head? = some dest ∧ p.getLast? = some start) ∧
    dijkstras_shortest_path 100 (0, 0) (2, 2) openGrid3 navAdj
      = some (some [(2, 2), (1, 1), (0, 0)]) := by
  constructor
  · intro g V start dest hwf hs fuel p hrun
    unfold dijkstras_shortest_path at hrun
    have H := (dloop_some (wf_closed hwf) (wf_pos hwf) (wf_tgt g V) hs dest fuel
      _ _ ∅ (dinv_init hs) (Finset.not_mem_empty dest) (some p) hrun).1 p rfl
    exact ⟨H.1, H.2.1⟩
  · with_unfolding_all decide

theorem C2_order_witness :
    ([((2 : ℤ), (2 : ℤ)), (1, 1), (0, 0)] : List Cell).head? = some (2, 2) ∧
    ([((2 : ℤ), (2 : ℤ)), (1, 1), (0, 0)] : List Cell).getLast? = some (0, 0) :=
  C2_path_order.1 openGrid3 grid3V (0, 0) (2, 2) (by with_unfolding_all decide)
    (by with_unfolding_all decide) 100 _ C2_path_order.2

/-- C4: for every grid, every adjacency function and every cell `s`, the
search from `s` to `s` immediately pops the start as the destination and
returns the single-element path `[s]`, a walk of cost `0`. -/
theorem C4_self_path (fuel : ℕ) (s : Cell) (graph : Grid)
    (adj : Grid → Cell → List (Q2 × Cell)) :
    dijkstras_shortest_path (fuel + 1) s s graph adj = some (some [s]) ∧
    WalkL (adj graph) s [s] s 0 := by
  constructor
  · unfold dijkstras_shortest_path dijkstraLoop
    have hpop : popMin pairLeb [((0 : Q2), s)] = some ((0, s), []) := rfl
    rw [hpop]
    dsimp only
    rw [if_pos rfl]
    have ht : updT (fun _ => none) s ((0 : Q2), none) s = some (0, none) := updT_self _ _ _
    unfold reconstruct
    rw [ht]
  · exact WalkL.nil s

/-- C5: for every well-formed grid, a completed search returns the no-path
signal `None` exactly when no walk from start reaches the destination — in
particular when the destination is a wall cell distinct from the start. -/
theorem C5_nopath_iff (g : Grid) (V : Finset Cell) (start dest : Cell)
    (hwf : WellFormed g V) (hs : start ∈ V) :
    (∀ fuel r, dijkstras_shortest_path fuel start dest g navAdj = some r →
      (r = none ↔ ¬ ∃ l w, WalkL (navAdj g) start l dest w)) ∧
    (dest ∈ g.walls → dest ≠ start →
      ∀ fuel r, dijkstras_shortest_path fuel start dest g navAdj = some r → r = none) := by
  have main : ∀ fuel r, dijkstras_shortest_path fuel start dest g navAdj = some r →
      (r = none ↔ ¬ ∃ l w, WalkL (navAdj g) start l dest w) := by
    intro fuel r hr
    unfold dijkstras_shortest_path at hr
    have H := dloop_some (wf_closed hwf) (wf_pos hwf) (wf_tgt g V) hs dest fuel
      _ _ ∅ (dinv_init hs) (Finset.not_mem_empty dest) r hr
    constructor
    · exact H.2
    · intro hnr
      cases r with
      | none => rfl
      | some p =>
        exfalso
        obtain ⟨_, _, w, hwalk, _⟩ := H.1 p rfl
        exact hnr ⟨p.reverse, w, hwalk⟩
  exact ⟨main, fun hdw hdne fuel r hr =>
    (main fuel r hr).mpr (wall_unreachable g hdw hdne)⟩

theorem C5_witness :
    ¬ ∃ l w, WalkL (navAdj openGrid3) (0, 0) l ((5 : ℤ), (5 : ℤ)) w :=
  ((C5_nopath_iff openGrid3 grid3V (0, 0) (5, 5) (by with_unfolding_all decide)
    (by with_unfolding_all decide)).1 100 none (by with_unfolding_all decide)).mp rfl

/-- C8: a wall cell has no outgoing edges: `navigation_edges` returns the
empty list for it. -/
theorem C8_wall_no_edges (g : Grid) (c : Cell) (h : c ∈ g.walls) :
    navigation_edges g c = some [] ∧ navAdj g c = [] :=
  ⟨navigation_edges_wall h, navAdj_eq (navigation_edges_wall h)⟩

theorem C8_witness :
    navigation_edges openGrid3 (-1, -1) = some [] ∧ navAdj openGrid3 (-1, -1) = [] :=
  C8_wall_no_edges openGrid3 (-1, -1) (by with_unfolding_all decide)

/-- Negating an offset keeps it an offset, with the same distance factor. -/
theorem navOffsets_neg : ∀ pd ∈ navOffsets, ((-pd.1.1, -pd.1.2), pd.2) ∈ navOffsets := by
  intro pd hpd
  simp only [navOffsets, List.mem_cons, List.not_mem_nil, or_false] at hpd
  rcases hpd with h | h | h | h | h | h | h | h <;> rw [h] <;> with_unfolding_all decide

/-- Grid adjacency is symmetric: if `pt` is a candidate neighbor of `a`
then `a` is a candidate neighbor of `pt`, at the same distance factor. -/
theorem adjPoints_symm {a pt : Cell} {dist : Q2} (h : (pt, dist) ∈ adjPoints a) :
    (a, dist) ∈ adjPoints pt := by
  unfold adjPoints at h ⊢
  rcases List.mem_map.mp h with ⟨o, ho, heq⟩
  refine List.mem_map.mpr ⟨((-o.1.1, -o.1.2), o.2), navOffsets_neg o ho, ?_⟩
  injection heq with h1 h2
  rw [h2, ← h1]
  dsimp only
  rw [neg_add_cancel_left, neg_add_cancel_left]

/-- Every candidate neighbor sits at distance factor `1` or `√2`. -/
theorem adjPoints_dist {a pt : Cell} {dist : Q2} (h : (pt, dist) ∈ adjPoints a) :
    dist = 1 ∨ dist = Q2.sqrt2 := by
  unfold adjPoints at h
  rcases List.mem_map.mp h with ⟨o, ho, heq⟩
  injection heq with h1 h2
  rw [← h2]
  exact navOffsets_dist o ho

/-- C3 counterexample: starting from a wall cell, the all-costs search
still returns a table with the wall start as a key (at cost `0`), so the
table can contain an entry whose key is in `walls`. -/
theorem C3_counterexample :
    ∃ tf, dijkstras_shortest_path_to_all 2 (0, 0) wallStartGrid navAdj = some tf ∧
      ((0 : ℤ), (0 : ℤ)) ∈ wallStartGrid.walls ∧ tf (0, 0) = some 0 := by
  refine ⟨updA (fun _ => none) (0, 0) 0, ?_, ?_, ?_⟩
  · with_unfolding_all rfl
  · with_unfolding_all decide
  · with_unfolding_all rfl

/-- C3 amended: on a well-formed grid the table returned by the all-costs
search has no wall cell as a key other than possibly the start itself, and
every stored cost equals the summed edge cost of the (optimal) path
returned by the corresponding single-destination search. -/
theorem C3_costs_agree (g : Grid) (V : Finset Cell) (start : Cell)
    (hwf : WellFormed g V) (hs : start ∈ V) :
    ∀ fuel tf, dijkstras_shortest_path_to_all fuel start g navAdj = some tf →
      (∀ c, c ∈ g.walls → c ≠ start → tf c = none) ∧
      (∀ c cost, tf c = some cost →
        ∃ fuel2 p, dijkstras_shortest_path fuel2 start c g navAdj = some (some p) ∧
          ∃ w, WalkL (navAdj g) start p.reverse c w ∧ w = cost) := by
  intro fuel tf htf
  unfold dijkstras_shortest_path_to_all at htf
  rw [initCost] at htf
  have H := allLoop_some (wf_closed hwf) (wf_pos hwf) (wf_tgt g V) hs fuel
    _ [(0, start)] ∅ (dinv_init hs) tf htf
  constructor
  · intro c hcw hcs
    cases htfc : tf c with
    | none => rfl
    | some cost =>
      rcases (H.1 c cost htfc).2.2 with h | h
      · exact absurd h hcs
      · exact absurd hcw h
  · intro c cost htfc
    obtain ⟨⟨lw, hlw⟩, hopt, _⟩ := H.1 c cost htfc
    have hterm := dloop_total (wf_closed hwf) (wf_pos hwf) (wf_tgt g V) hs c
      (1 + (V.sum fun x => 1 + (navAdj g x).length))
      (1 + (V.sum fun x => 1 + (navAdj g x).length) + V.card + 1)
      (updT (fun _ => none) start (0, none)) [(0, start)] ∅ (dinv_init hs)
      (by rw [Finset.sdiff_empty]; simp) (by omega)
    rcases hr : dijkstraLoop (navAdj g) c
        (1 + (V.sum fun x => 1 + (navAdj g x).length) + V.card + 1)
        (updT (fun _ => none) start (0, none)) [(0, start)] with _ | r
    · exact absurd hr hterm
    · have H2 := dloop_some (wf_closed hwf) (wf_pos hwf) (wf_tgt g V) hs c _
        _ _ ∅ (dinv_init hs) (Finset.not_mem_empty c) r hr
      cases r with
      | none => exact absurd ⟨lw, cost, hlw⟩ (H2.2 rfl)
      | some p =>
        obtain ⟨_, _, w, hwalk, hmin⟩ := H2.1 p rfl
        refine ⟨1 + (V.sum fun x => 1 + (navAdj g x).length) + V.card + 1, p, ?_, w, hwalk, ?_⟩
        · unfold dijkstras_shortest_path
          exact hr
        · exact le_antisymm (hmin lw cost hlw) (hopt p.reverse w hwalk)

theorem C3_witness :
    ∃ tf, dijkstras_shortest_path_to_all 100 (0, 0) openGrid3 navAdj = some tf ∧
      tf ((-1 : ℤ), (0 : ℤ)) = none := by
  rcases hr : dijkstras_shortest_path_to_all 100 (0, 0) openGrid3 navAdj with _ | tf
  · have hsome : (dijkstras_shortest_path_to_all 100 (0, 0) openGrid3 navAdj).isSome = true := by
      with_unfolding_all decide
    rw [hr] at hsome
    simp at hsome
  · refine ⟨tf, rfl, ?_⟩
    exact (C3_costs_agree openGrid3 grid3V (0, 0) (by with_unfolding_all decide)
      (by with_unfolding_all decide) 100 tf hr).1 (-1, 0) (by with_unfolding_all decide)
      (by with_unfolding_all decide)

/-- C6: on a non-wall cell, a missing weight — for a non-wall candidate
neighbor, or for the cell itself when it has at least one non-wall
candidate neighbor — makes `navigation_edges` fail (the Python
`TypeError`, modelled as `none`) rather than return a defaulted result. -/
theorem C6_missing_weight (g : Grid) (c : Cell) (hcw : ¬ c ∈ g.walls)
    (h : (∃ pd ∈ adjPoints c, ¬ pd.1 ∈ g.walls ∧ Grid.weight g pd.1 = none) ∨
         (Grid.weight g c = none ∧ ∃ pd ∈ adjPoints c, ¬ pd.1 ∈ g.walls)) :
    navigation_edges g c = none := by
  unfold navigation_edges
  rw [if_neg hcw]
  apply navLoop_fail
  rcases h with ⟨pd, hmem, hnw, hwn⟩ | ⟨hwc, pd, hmem, hnw⟩
  · exact ⟨pd, hmem, hnw, Or.inl hwn⟩
  · exact ⟨pd, hmem, hnw, Or.inr hwc⟩

theorem C6_witness : navigation_edges looseGrid (0, 0) = none :=
  C6_missing_weight looseGrid (0, 0) (by with_unfolding_all decide)
    (Or.inl ⟨((-1, -1), Q2.sqrt2), by with_unfolding_all decide,
      by with_unfolding_all decide, by with_unfolding_all rfl⟩)

/-- C7: every edge produced by `navigation_edges` on a weighted non-wall
cell has cost `dist * (neighbor_weight + cell_weight) / 2` with `dist` `1`
(orthogonal) or `√2` (diagonal); the cost is symmetric — the same edge
cost leads back from the neighbor — and for equal weights `w` the formula
yields `w·√2` diagonally and `w` orthogonally. -/
theorem C7_edge_cost (g : Grid) (a : Cell) (ha : ¬ a ∈ g.walls) (wa : ℚ)
    (hwa : Grid.weight g a = some wa) :
    (∀ p ∈ navAdj g a, ∃ dist wb, (p.2, dist) ∈ adjPoints a ∧
        (dist = 1 ∨ dist = Q2.sqrt2) ∧ Grid.weight g p.2 = some wb ∧
        p.1 = dist * Q2.ofQ (wb + wa) / 2) ∧
    (∀ cost b, (cost, b) ∈ navAdj g a → (navigation_edges g b).isSome = true →
        (cost, a) ∈ navAdj g b) ∧
    (∀ w : ℚ, Q2.sqrt2 * Q2.ofQ (w + w) / 2 = Q2.ofQ w * Q2.sqrt2 ∧
      (1 : Q2) * Q2.ofQ (w + w) / 2 = Q2.ofQ w) := by
  refine ⟨?_, ?_, ?_⟩
  · intro p hp
    unfold navAdj at hp
    rcases hna : navigation_edges g a with _ | r
    · rw [hna] at hp; simp at hp
    · rw [hna] at hp
      dsimp only [Option.getD] at hp
      unfold navigation_edges at hna
      rw [if_neg ha] at hna
      obtain ⟨pt, dist, hpd, hb, hptw, pw, w, hpw, hww, hcost⟩ :=
        navLoop_chr g (adjPoints a) (Grid.weight g a) r hna p hp
      rw [hwa] at hww
      injection hww with hww
      subst hww
      refine ⟨dist, pw, ?_, ?_, ?_, hcost⟩
      · rw [hb]; exact hpd
      · exact adjPoints_dist hpd
      · rw [hb]; exact hpw
  · intro cost b hmem hbs
    unfold navAdj at hmem
    rcases hna : navigation_edges g a with _ | r
    · rw [hna] at hmem; simp at hmem
    · rw [hna] at hmem
      dsimp only [Option.getD] at hmem
      unfold navigation_edges at hna
      rw [if_neg ha] at hna
      obtain ⟨pt, dist, hpd, hb, hptw, pw, w, hpw, hww, hcost⟩ :=
        navLoop_chr g (adjPoints a) (Grid.weight g a) r hna (cost, b) hmem
      dsimp only at hb hcost
      subst hb
      rw [hwa] at hww
      injection hww with hww
      subst hww
      rcases hnb : navigation_edges g b with _ | rb
      · rw [hnb] at hbs; simp at hbs
      · unfold navAdj
        rw [hnb]
        dsimp only [Option.getD]
        unfold navigation_edges at hnb
        rw [if_neg hptw] at hnb
        have hmem2 := navLoop_mem g (adjPoints b) (Grid.weight g b) rb hnb a dist wa pw
          (adjPoints_symm hpd) ha hwa hpw
        rw [hcost, add_comm pw wa]
        exact hmem2
  · intro w
    constructor
    · apply Q2.val_injective
      rw [Q2.val_div_two, Q2.val_mul, Q2.val_mul, Q2.val_ofQ, Q2.val_ofQ, Q2.val_sqrt2]
      push_cast
      ring
    · apply Q2.val_injective
      rw [Q2.val_div_two, Q2.val_mul, Q2.val_ofQ, Q2.val_ofQ, val_one]
      push_cast
      ring

theorem C7_witness :
    (Q2.sqrt2 * Q2.ofQ (1 + 1) / 2, ((0 : ℤ), (0 : ℤ))) ∈ navAdj openGrid3 (1, 1) :=
  (C7_edge_cost openGrid3 (0, 0) (by with_unfolding_all decide) 1
    (by with_unfolding_all rfl)).2.1 (Q2.sqrt2 * Q2.ofQ (1 + 1) / 2) (1, 1)
    (by with_unfolding_all decide) (by with_unfolding_all decide)

/-- C9: on a well-formed grid both searches terminate: beyond an explicit
iteration bound depending only on the grid, neither fueled loop runs out
of fuel — it always reaches a return (a path, the no-path signal, or the
cost table). -/
theorem C9_terminates (g : Grid) (V : Finset Cell) (start dest : Cell)
    (hwf : WellFormed g V) (hs : start ∈ V) :
    ∃ F, ∀ fuel, F ≤ fuel →
      dijkstras_shortest_path fuel start dest g navAdj ≠ none ∧
      dijkstras_shortest_path_to_all fuel start g navAdj ≠ none := by
  refine ⟨1 + (V.sum fun x => 1 + (navAdj g x).length) + V.card + 1, fun fuel hf => ⟨?_, ?_⟩⟩
  · unfold dijkstras_shortest_path
    exact dloop_total (wf_closed hwf) (wf_pos hwf) (wf_tgt g V) hs dest
      (1 + (V.sum fun x => 1 + (navAdj g x).length)) fuel _ _ ∅ (dinv_init hs)
      (by rw [Finset.sdiff_empty]; simp) (by omega)
  · unfold dijkstras_shortest_path_to_all
    rw [initCost]
    exact allLoop_total (wf_closed hwf) (wf_pos hwf) (wf_tgt g V) hs
      (1 + (V.sum fun x => 1 + (navAdj g x).length)) fuel _ _ ∅ (dinv_init hs)
      (by rw [Finset.sdiff_empty]; simp) (by omega)

theorem C9_witness :
    ∃ F, dijkstras_shortest_path F (0, 0) (2, 2) openGrid3 navAdj ≠ none ∧
      dijkstras_shortest_path_to_all F (0, 0) openGrid3 navAdj ≠ none := by
  obtain ⟨F, hF⟩ := C9_terminates openGrid3 grid3V (0, 0) (2, 2)
    (by with_unfolding_all decide) (by with_unfolding_all decide)
  exact ⟨F, hF F le_rfl⟩

/-- C10: whenever the all-costs search returns a table on a
positive-weight grid, the table maps the start to cost `0`; and when the
start is a wall cell, the adjacency function yields no edges and the
returned table is exactly the singleton `start ↦ 0`. -/
theorem C10_start_zero :
    (∀ (g : Grid) (start : Cell), PosWeights g →
      ∀ fuel tf, dijkstras_shortest_path_to_all fuel start g navAdj = some tf →
        tf start = some 0) ∧
    (∀ (g : Grid) (start : Cell), start ∈ g.walls → ∀ fuel,
      dijkstras_shortest_path_to_all (fuel + 2) start g navAdj
        = some (updA (fun _ => none) start 0)) := by
  constructor
  · intro g start hpw fuel tf htf
    unfold dijkstras_shortest_path_to_all at htf
    refine allLoop_start (fun c p hp => navAdj_cost_pos hpw.1 hpw.2 c p hp) fuel _ _ tf
      ?_ ?_ htf
    · unfold updA
      rw [if_pos rfl]
    · intro x cx hx
      unfold updA at hx
      by_cases h : x = start
      · rw [if_pos h] at hx
        injection hx with hx
        rw [← hx]
      · rw [if_neg h] at hx
        exact absurd hx (by simp)
  · intro g start hws fuel
    have hadj : navAdj g start = [] := navAdj_eq (navigation_edges_wall hws)
    unfold dijkstras_shortest_path_to_all
    show dijkstraAllLoop (navAdj g) (fuel + 1 + 1) (updA (fun _ => none) start 0)
        [(0, start)] = some (updA (fun _ => none) start 0)
    unfold dijkstraAllLoop
    have hpop : popMin pairLeb [((0 : Q2), start)] = some ((0, start), []) := rfl
    rw [hpop]
    dsimp only
    rw [hadj]
    show dijkstraAllLoop (navAdj g) (fuel + 1) (updA (fun _ => none) start 0) []
        = some (updA (fun _ => none) start 0)
    unfold dijkstraAllLoop
    rfl

theorem C10_witness :
    dijkstras_shortest_path_to_all 2 (0, 0) wallStartGrid navAdj
        = some (updA (fun _ => none) (0, 0) 0) ∧
    updA (fun _ => none) ((0 : ℤ), (0 : ℤ)) 0 (0, 0) = some 0 :=
  ⟨C10_start_zero.2 wallStartGrid (0, 0) (by with_unfolding_all decide) 0,
   by with_unfolding_all rfl⟩
